import Mathlib

/-!
# Verification of the stroke-matching engine (`stroke_matcher.py`)

Shallow embedding of the stroke-matching system: normalizer, feature
extractor, fitness function, genetic algorithm and error classifier,
together with proofs about the behaviour the specification claims.

Randomness (`np.random`) is modelled by an explicit `Oracle`: two streams,
one of naturals (feeding `randint`, `shuffle`, `choice`) and one of
rationals (feeding `random()`).  A stream position is threaded through
every random primitive, so a run of the algorithm is a deterministic
function of the inputs and the oracle.

Python floats are modelled as follows: the genetic algorithm is generic in
the ordered field `F` of fitness values (instantiated with `ℝ` by the full
pipeline and with `ℚ` by executable test runs), while the geometric layer
(coordinates, features, distances) uses `ℝ`.  Python exceptions are
modelled with `Except PyErr`.
-/

namespace Autograder

/-- Exceptions the Python code can raise on the paths we model. -/
inductive PyErr where
  /-- `ValueError` raised by `StrokeNormalizer.normalize` for a stroke with
  fewer than two rows. -/
  | invalidStroke
  /-- `ValueError` raised by `min`/`max` over an empty numpy array or list. -/
  | maxEmpty
  /-- `ValueError` raised by `np.random.choice(n, k, replace=False)` when
  `k > n`. -/
  | choiceError
  /-- `AttributeError` raised by `None.copy()` when no best chromosome was
  ever recorded. -/
  | noneCopy
  /-- `TypeError` raised by iterating over a `None` mapping. -/
  | noneIterate
  deriving DecidableEq

/-- Adversarial model of `np.random`: an arbitrary stream of naturals and
an arbitrary stream of rationals, indexed by a running position. -/
structure Oracle where
  nats : ℕ → ℕ
  rats : ℕ → ℚ

/-- `np.random.randint(lo, hi)` (exclusive upper bound): draws the next
natural from the stream and maps it into `[lo, hi)`. -/
def randNat (o : Oracle) (lo hi p : ℕ) : ℕ × ℕ :=
  (lo + o.nats p % (hi - lo), p + 1)

/-- `np.random.random()`: draws the next rational from the stream. -/
def randRat (o : Oracle) (p : ℕ) : ℚ × ℕ :=
  (o.rats p, p + 1)

/-- Swap the entries at positions `i` and `j` of a list (no-op when either
index is out of range). -/
def swapIdx (l : List ℕ) (i j : ℕ) : List ℕ :=
  match l.get? i, l.get? j with
  | some a, some b => (l.set i b).set j a
  | _, _ => l

/-- Fisher–Yates shuffle as performed by `np.random.shuffle`: for `i` from
`n-1` down to `1`, draw `j = randint(0, i+1)` and swap positions `i`, `j`. -/
def fyShuffle (o : Oracle) : ℕ → List ℕ → ℕ → List ℕ × ℕ
  | 0, l, p => (l, p)
  | i + 1, l, p =>
    let jp := randNat o 0 (i + 2) p
    fyShuffle o i (swapIdx l (i + 1) jp.1) jp.2

/-- `np.random.shuffle(l)`. -/
def shuffle (o : Oracle) (l : List ℕ) (p : ℕ) : List ℕ × ℕ :=
  fyShuffle o (l.length - 1) l p

/-- `k` i.i.d. draws `np.random.randint(lo, hi, size=k)`. -/
def iidNats (o : Oracle) (lo hi : ℕ) : ℕ → ℕ → List ℕ × ℕ
  | 0, p => ([], p)
  | n + 1, p =>
    let g := randNat o lo hi p
    let rest := iidNats o lo hi n g.2
    (g.1 :: rest.1, rest.2)

/-- `np.random.choice(avail, k, replace=False)`: sequentially remove `k`
elements from the pool `avail`; raises when the pool runs dry (numpy raises
exactly when `k` exceeds the pool size). -/
def pickDistinct (o : Oracle) : ℕ → List ℕ → ℕ → Except PyErr (List ℕ × ℕ)
  | 0, _, p => .ok ([], p)
  | k + 1, avail, p =>
    match avail with
    | [] => .error .choiceError
    | _ :: _ =>
      let idx := o.nats p % avail.length
      let chosen := avail.getD idx 0
      (pickDistinct o k (avail.eraseIdx idx) (p + 1)).map fun r => (chosen :: r.1, r.2)

/-- Configuration of `GeneticAlgorithm.__init__` (after the
`population_size or (8 * n_written)` default has been applied).  The
constructor performs no validation whatsoever. -/
structure GeneticAlgorithm where
  nWritten : ℕ
  nReference : ℕ
  populationSize : ℕ
  maxGenerations : ℕ
  crossoverRate : ℚ
  mutationRate : ℚ
  tournamentSize : ℕ
  convergenceGenerations : ℕ
  deriving DecidableEq

/-- `GeneticAlgorithm.__init__`: stores the parameters; `population_size`
falls back to `8 * n_written` when it is `None` or `0` (Python's falsy
test `population_size or (8 * n_written)`).  No check is performed. -/
def mkGA (nW nR : ℕ) (popSize : Option ℕ) (maxGen : ℕ) (cr mr : ℚ)
    (ts cg : ℕ) : GeneticAlgorithm :=
  { nWritten := nW
    nReference := nR
    populationSize :=
      match popSize with
      | some ps => if ps = 0 then 8 * nW else ps
      | none => 8 * nW
    maxGenerations := maxGen
    crossoverRate := cr
    mutationRate := mr
    tournamentSize := ts
    convergenceGenerations := cg }

/-- `GeneticAlgorithm.create_chromosome`: a random assignment of length
`n_written` with genes in `[0, n_reference]`, by cases on
`diff = n_written - n_reference`. -/
def GeneticAlgorithm.createChromosome (ga : GeneticAlgorithm) (o : Oracle) (p : ℕ) :
    List ℕ × ℕ :=
  if ga.nWritten = ga.nReference then
    shuffle o (List.range' 1 ga.nReference) p
  else if ga.nReference < ga.nWritten then
    shuffle o (List.range' 1 ga.nReference ++ List.replicate (ga.nWritten - ga.nReference) 0) p
  else
    iidNats o 1 (ga.nReference + 1) ga.nWritten p

/-- Python's `max(tournament, key=lambda x: x[1])`: scan left to right,
replacing the current winner only on a strictly larger key, so the first
maximal element wins. -/
def tournamentWinner {F : Type} [LinearOrder F] (first : List ℕ × F)
    (rest : List (List ℕ × F)) : List ℕ :=
  (rest.foldl (fun acc cand => if acc.2 < cand.2 then cand else acc) first).1

/-- `GeneticAlgorithm.tournament_selection`: sample `tournament_size`
distinct indices, return (a copy of) the chromosome with the best fitness
among them. -/
def GeneticAlgorithm.tournamentSelection {F : Type} [LinearOrderedField F]
    (ga : GeneticAlgorithm) (o : Oracle) (pop : List (List ℕ)) (fits : List F)
    (p : ℕ) : Except PyErr (List ℕ × ℕ) :=
  (pickDistinct o ga.tournamentSize (List.range pop.length) p).bind fun r =>
    match r.1.map (fun i => (pop.getD i [], fits.getD i 0)) with
    | [] => .error .maxEmpty
    | t :: ts => .ok (tournamentWinner t ts, r.2)

/-- `GeneticAlgorithm.crossover`: single-point crossover with probability
`crossover_rate`; a no-op copy when the parents have fewer than two genes. -/
def GeneticAlgorithm.crossover (ga : GeneticAlgorithm) (o : Oracle)
    (p1 p2 : List ℕ) (p : ℕ) : (List ℕ × List ℕ) × ℕ :=
  if p1.length < 2 then ((p1, p2), p)
  else
    let rp := randRat o p
    if rp.1 < ga.crossoverRate then
      let cp := randNat o 1 p1.length rp.2
      ((p1.take cp.1 ++ p2.drop cp.1, p2.take cp.1 ++ p1.drop cp.1), cp.2)
    else ((p1, p2), rp.2)

/-- Gene-wise mutation: with probability `rate` replace the gene by
`randint(0, hi)` (`hi` exclusive). -/
def mutateAux (o : Oracle) (rate : ℚ) (hi : ℕ) : List ℕ → ℕ → List ℕ × ℕ
  | [], p => ([], p)
  | g :: gs, p =>
    let rp := randRat o p
    let gp := if rp.1 < rate then randNat o 0 hi rp.2 else (g, rp.2)
    let rest := mutateAux o rate hi gs gp.2
    (gp.1 :: rest.1, rest.2)

/-- `GeneticAlgorithm.mutate`: each gene independently mutates to a uniform
draw from `[0, n_reference]` with probability `mutation_rate`. -/
def GeneticAlgorithm.mutate (ga : GeneticAlgorithm) (o : Oracle) (c : List ℕ)
    (p : ℕ) : List ℕ × ℕ :=
  mutateAux o ga.mutationRate (ga.nReference + 1) c p

/-- The initial population: `populationSize` chromosomes created in
sequence. -/
def initPop (ga : GeneticAlgorithm) (o : Oracle) : ℕ → ℕ → List (List ℕ) × ℕ
  | 0, p => ([], p)
  | n + 1, p =>
    let c := ga.createChromosome o p
    let rest := initPop ga o n c.2
    (c.1 :: rest.1, rest.2)

/-- Python's `max(l)` over a list: raises `ValueError` on an empty list. -/
def maxList {F : Type} [LinearOrder F] : List F → Except PyErr F
  | [] => .error .maxEmpty
  | x :: xs => .ok (xs.foldl max x)

/-- State of the generation loop of `GeneticAlgorithm.evolve`. -/
structure GAState (F : Type) where
  population : List (List ℕ)
  bestChrom : Option (List ℕ)
  bestFit : F
  stagnation : ℕ
  histBest : List F
  histAvg : List F
  pos : ℕ

/-- First index of `v` in `l` (Python's `l.index(v)`). -/
def indexOfFirst {F : Type} [DecidableEq F] (v : F) (l : List F) : ℕ :=
  l.findIdx (fun x => decide (x = v))

/-- The `while len(new_population) < population_size` loop of `evolve`:
two tournament selections, crossover, mutation of both children, append
both.  The fuel argument is `populationSize + 1`, which is always enough
since every iteration appends two children. -/
def buildPop {F : Type} [LinearOrderedField F] (ga : GeneticAlgorithm) (o : Oracle)
    (pop : List (List ℕ)) (fits : List F) :
    ℕ → List (List ℕ) → ℕ → Except PyErr (List (List ℕ) × ℕ)
  | 0, acc, p => .ok (acc, p)
  | fuel + 1, acc, p =>
    if acc.length < ga.populationSize then
      (ga.tournamentSelection o pop fits p).bind fun s1 =>
      (ga.tournamentSelection o pop fits s1.2).bind fun s2 =>
      let cr := ga.crossover o s1.1 s2.1 s2.2
      let m1 := ga.mutate o cr.1.1 cr.2
      let m2 := ga.mutate o cr.1.2 m1.2
      buildPop ga o pop fits fuel (acc ++ [m1.1, m2.1]) m2.2
    else .ok (acc, p)

/-- One pass of the generation loop of `GeneticAlgorithm.evolve`,
recursing on the number of generations left. -/
def evolveLoop {F : Type} [LinearOrderedField F] [DecidableEq F]
    (ga : GeneticAlgorithm) (fit : List ℕ → F) (o : Oracle) :
    ℕ → GAState F → Except PyErr (GAState F)
  | 0, st => .ok st
  | g + 1, st =>
    let fits := st.population.map fit
    match maxList fits with
    | .error e => .error e
    | .ok genBest =>
      let genAvg := fits.sum / (fits.length : F)
      let upd := st.bestFit < genBest
      let best' := if upd then some (st.population.getD (indexOfFirst genBest fits) [])
                   else st.bestChrom
      let bfit' := if upd then genBest else st.bestFit
      let stag' := if upd then 0 else st.stagnation + 1
      let hb := st.histBest ++ [genBest]
      let ha := st.histAvg ++ [genAvg]
      if ga.convergenceGenerations ≤ stag' then
        .ok ⟨st.population, best', bfit', stag', hb, ha, st.pos⟩
      else
        match best' with
        | none => .error .noneCopy
        | some b =>
          match buildPop ga o st.population fits (ga.populationSize + 1) [b] st.pos with
          | .error e => .error e
          | .ok np =>
            evolveLoop ga fit o g
              ⟨np.1.take ga.populationSize, best', bfit', stag', hb, ha, np.2⟩

/-- Result record of `GeneticAlgorithm.evolve`.  `mapping` is `none` when
the loop never ran (Python returns the initial `None`). -/
structure GAResult (F : Type) where
  mapping : Option (List ℕ)
  fitness : F
  generations : ℕ
  historyBest : List F
  historyAvg : List F

/-- `GeneticAlgorithm.evolve`: initialize the population, run the
generation loop, package the result.  `generations` is the length of the
recorded best-fitness history, as in the source. -/
def GeneticAlgorithm.evolve {F : Type} [LinearOrderedField F] [DecidableEq F]
    (ga : GeneticAlgorithm) (fit : List ℕ → F) (o : Oracle) :
    Except PyErr (GAResult F) :=
  let ip := initPop ga o ga.populationSize 0
  (evolveLoop ga fit o ga.maxGenerations ⟨ip.1, none, 0, 0, [], [], ip.2⟩).map
    fun st => ⟨st.bestChrom, st.bestFit, st.histBest.length, st.histBest, st.histAvg⟩

/-! ## Geometric layer: strokes, normalization, features, fitness -/

/-- A stroke: a list of coordinate rows (`(k, n)` numpy array).  The first
row holds the x samples and the second the y samples; further rows are
extra channels the engine ignores. -/
abbrev Stroke := List (List ℝ)

/-- The metadata dictionary returned by `StrokeNormalizer.normalize`. -/
structure NormMeta where
  xMin : ℝ
  yMin : ℝ
  xMax : ℝ
  yMax : ℝ
  scale : ℝ
  width : ℝ
  height : ℝ

/-- Minimum of a nonempty list, Python/numpy style (`arr.min()`); the
head is the seed so the default is never consulted on nonempty input. -/
def listMin : List ℝ → ℝ
  | [] => 0
  | x :: xs => xs.foldl min x

/-- Maximum of a nonempty list (`arr.max()`). -/
def listMax : List ℝ → ℝ
  | [] => 0
  | x :: xs => xs.foldl max x

/-- Rescale one stroke: rows 0 and 1 are translated and scaled, any extra
rows of the copy are left untouched (`norm_stroke = stroke.copy()` then
assignment to rows 0 and 1 only). -/
def normStroke (xMin yMin scale : ℝ) (s : Stroke) : Stroke :=
  match s with
  | r0 :: r1 :: rest =>
      (r0.map fun v => (v - xMin) * scale) :: (r1.map fun v => (v - yMin) * scale) :: rest
  | short => short

open Classical in
/-- `StrokeNormalizer.normalize`: translate the joint bounding box to the
origin and scale isotropically so that the larger dimension equals
`target`.  An empty stroke list returns `([], {})`; a stroke with fewer
than two rows raises; an all-empty coordinate row raises (numpy `min` of
an empty array). -/
noncomputable def normalize (target : ℝ) (strokes : List Stroke) :
    Except PyErr (List Stroke × Option NormMeta) :=
  match strokes with
  | [] => .ok ([], none)
  | _ =>
    if strokes.any (fun s => s.length < 2) then .error .invalidStroke
    else
      let allX := strokes.flatMap (fun s => s.getD 0 [])
      let allY := strokes.flatMap (fun s => s.getD 1 [])
      if allX.isEmpty then .error .maxEmpty
      else if allY.isEmpty then .error .maxEmpty
      else
        let xMin := listMin allX
        let xMax := listMax allX
        let yMin := listMin allY
        let yMax := listMax allY
        let width := xMax - xMin
        let height := yMax - yMin
        let scale :=
          if width = 0 ∧ height = 0 then 1
          else if width = 0 then target / height
          else if height = 0 then target / width
          else target / max width height
        .ok (strokes.map (normStroke xMin yMin scale),
             some ⟨xMin, yMin, xMax, yMax, scale, width, height⟩)

/-- `StrokeFeatures`: the per-stroke descriptors computed by
`StrokeFeatureExtractor.extract`. -/
structure StrokeFeatures where
  center : ℝ × ℝ
  length : ℝ
  angle : ℝ
  startPoint : ℝ × ℝ
  endPoint : ℝ × ℝ
  points : List ℝ × List ℝ

instance : Inhabited StrokeFeatures :=
  ⟨⟨(0, 0), 0, 0, (0, 0), (0, 0), ([], [])⟩⟩

/-- Euclidean norm of a planar vector (`np.linalg.norm`). -/
noncomputable def norm2 (v : ℝ × ℝ) : ℝ :=
  Real.sqrt (v.1 ^ 2 + v.2 ^ 2)

/-- Total arc length: sum of distances of consecutive sample points. -/
noncomputable def arcLength : List (ℝ × ℝ) → ℝ
  | [] => 0
  | [_] => 0
  | a :: b :: rest => norm2 (b.1 - a.1, b.2 - a.2) + arcLength (b :: rest)

open Classical in
/-- `StrokeFeatureExtractor.extract`: center of mass, arc length, chord
angle from the vertical (`np.arctan2(Δx, Δy)`, i.e. the argument of the
complex number `Δy + Δx·i`), start and end points.  A chord of norm at
most `1e-6` yields angle `0`. -/
noncomputable def extract (stroke : Stroke) : StrokeFeatures :=
  let x := stroke.getD 0 []
  let y := stroke.getD 1 []
  let center := (x.sum / (x.length : ℝ), y.sum / (y.length : ℝ))
  let len := arcLength (x.zip y)
  let s := (x.getD 0 0, y.getD 0 0)
  let e := ((x.getLast?.getD 0 : ℝ), (y.getLast?.getD 0 : ℝ))
  let vec := (e.1 - s.1, e.2 - s.2)
  let angle :=
    if 1e-6 < norm2 vec then Complex.arg ⟨vec.2, vec.1⟩ else 0
  ⟨center, len, angle, s, e, (x, y)⟩

/-- Fitness weights `α, β, γ, ε` of `FitnessFunction`. -/
structure FitnessParams where
  alpha : ℝ
  beta : ℝ
  gamma : ℝ
  epsilon : ℝ

/-- The default weights (all `1.0`). -/
def defaultParams : FitnessParams := ⟨1, 1, 1, 1⟩

/-- Top-left corner of the bounding box of the feature centers (component
minima); `(0, 0)` for an empty feature list. -/
noncomputable def bboxTL (fs : List StrokeFeatures) : ℝ × ℝ :=
  match fs with
  | [] => (0, 0)
  | _ => (listMin (fs.map fun f => f.center.1), listMin (fs.map fun f => f.center.2))

open Classical in
/-- Per-pair cost of matching written stroke `w` against reference stroke
`r`, given the two bounding-box corners. -/
noncomputable def pairCost (fp : FitnessParams) (wTL rTL : ℝ × ℝ)
    (w r : StrokeFeatures) : ℝ :=
  let dCenter := norm2 (w.center.1 - r.center.1, w.center.2 - r.center.2)
  let dLength := |w.length - r.length|
  let dAngle0 := |w.angle - r.angle|
  let dAngle := if Real.pi < dAngle0 then 2 * Real.pi - dAngle0 else dAngle0
  let wRel := norm2 (w.center.1 - wTL.1, w.center.2 - wTL.2)
  let rRel := norm2 (r.center.1 - rTL.1, r.center.2 - rTL.2)
  let dRel := |wRel - rRel|
  fp.alpha * dCenter + fp.beta * dLength + fp.gamma * dAngle + fp.epsilon * dRel

open Classical in
/-- `FitnessFunction.compute_distance`: sum the per-written-stroke
contributions; an unmatched gene (`0` or beyond the reference count)
contributes the fixed penalty `1000`. -/
noncomputable def computeDistance (fp : FitnessParams)
    (wf rf : List StrokeFeatures) (mapping : List ℕ) : ℝ :=
  let wTL := bboxTL wf
  let rTL := bboxTL rf
  (mapping.enum.map fun ir =>
    if ir.2 = 0 ∨ rf.length < ir.2 then (1000 : ℝ)
    else pairCost fp wTL rTL (wf.getD ir.1 default) (rf.getD (ir.2 - 1) default)).sum

/-- `FitnessFunction.compute_fitness`: `1 / (1 + distance)`. -/
noncomputable def computeFitness (distance : ℝ) : ℝ :=
  1 / (1 + distance)

/-- `GeneticAlgorithm.evaluate_chromosome`. -/
noncomputable def evaluateChromosome (fp : FitnessParams)
    (wf rf : List StrokeFeatures) (c : List ℕ) : ℝ :=
  computeFitness (computeDistance fp wf rf c)

/-! ## Error classifier -/

/-- The classifier's error records (the five tagged kinds; the free-text
description string is omitted). -/
inductive ErrorRecord where
  | extra (writtenIndices : List ℕ) (referenceIndex : Option ℕ)
  | broken (writtenIndices : List ℕ) (referenceIndex : ℕ)
  | missing (referenceIndex : ℕ)
  | orient (writtenIndex : ℕ) (referenceIndex : ℕ) (angleDiffDeg : ℝ)
  | order (writtenIndex : ℕ) (referenceIndex : ℕ)

/-- Append index `i` to the group of key `r`, creating the group at the
end when the key is new — exactly a Python dict built by insertion. -/
def insertGroup (groups : List (ℕ × List ℕ)) (r i : ℕ) : List (ℕ × List ℕ) :=
  match groups with
  | [] => [(r, [i])]
  | (k, v) :: rest =>
      if k = r then (k, v ++ [i]) :: rest else (k, v) :: insertGroup rest r i

/-- `ref_groups`: group written indices by their reference gene, keys in
first-occurrence order, each group in increasing index order. -/
def refGroups (m : List ℕ) : List (ℕ × List ℕ) :=
  m.enum.foldl (fun acc ir => insertGroup acc ir.2 ir.1) []

/-- The number of distinct matched references
`len([r for r in ref_groups if r > 0])`. -/
def distinctMatched (m : List ℕ) : ℕ :=
  ((refGroups m).filter fun kv => 0 < kv.1).length

/-- `ErrorDetector._check_broken_extra`: one `EXTRA` record for the zero
group, then for every multiply-used positive reference either an `EXTRA`
record for the surplus (when `W` exceeds the number of distinct matched
references) or a `BROKEN` record for the whole group. -/
def checkBrokenExtra (m : List ℕ) : List ErrorRecord :=
  let groups := refGroups m
  let zeroPart : List ErrorRecord :=
    match groups.lookup 0 with
    | some l => if 0 < l.length then [.extra l none] else []
    | none => []
  zeroPart ++ groups.flatMap fun kv =>
    if 0 < kv.1 ∧ 1 < kv.2.length then
      if distinctMatched m < m.length then
        [.extra kv.2.tail (some (kv.1 - 1))]
      else
        [.broken kv.2 (kv.1 - 1)]
    else []

/-- `ErrorDetector._check_missing`: a `MISSING` record for every reference
index not hit by any positive gene. -/
def checkMissing (m : List ℕ) (nReference : ℕ) : List ErrorRecord :=
  (List.range nReference).filterMap fun k =>
    if (m.filter fun r => 0 < r).map (fun r => r - 1) |>.contains k then none
    else some (.missing k)

/-- Radians to degrees (`np.degrees`). -/
noncomputable def degrees (r : ℝ) : ℝ := r * 180 / Real.pi

open Classical in
/-- `ErrorDetector._check_orientation`: for every matched pair, wrap the
angle difference to `[0, π]` and record an `ORIENTATION` error when it
exceeds the threshold. -/
noncomputable def checkOrient (m : List ℕ) (wf rf : List StrokeFeatures)
    (threshold : ℝ) : List ErrorRecord :=
  m.enum.filterMap fun ir =>
    if ir.2 = 0 ∨ rf.length < ir.2 then none
    else
      let w := wf.getD ir.1 default
      let r := rf.getD (ir.2 - 1) default
      let d0 := |w.angle - r.angle|
      let d := if Real.pi < d0 then 2 * Real.pi - d0 else d0
      if threshold < d then some (.orient ir.1 (ir.2 - 1) (degrees d)) else none

/-- `ErrorDetector._check_order`: an `ORDER` record for every matched
written stroke whose gene is not `i + 1`. -/
def checkOrder (m : List ℕ) : List ErrorRecord :=
  m.enum.filterMap fun ir =>
    if 0 < ir.2 ∧ ir.2 ≠ ir.1 + 1 then some (.order ir.1 (ir.2 - 1)) else none

/-- `ErrorDetector._check_concatenated_redundant`: reserved, emits
nothing. -/
def checkConcatRedundant (_m : List ℕ) : List ErrorRecord := []

/-- `ErrorDetector.detect_errors`: the five passes in sequence. -/
noncomputable def detectErrors (m : List ℕ) (wf rf : List StrokeFeatures)
    (threshold : ℝ) : List ErrorRecord :=
  checkConcatRedundant m ++ checkBrokenExtra m ++ checkMissing m rf.length ++
    checkOrient m wf rf threshold ++ checkOrder m

/-! ## The complete pipeline (`StrokeMatcher.match`) -/

/-- Configuration of `StrokeMatcher.__init__`; the remaining GA controls
(crossover rate 0.8, mutation rate 0.1, tournament size 3, convergence
window 10) and the normalizer target (100) are fixed by the source. -/
structure MatcherCfg where
  alpha : ℝ
  beta : ℝ
  gamma : ℝ
  epsilon : ℝ
  populationSize : Option ℕ
  maxGenerations : ℕ
  angleThreshold : ℝ
  normFlag : Bool

/-- The default `StrokeMatcher()` configuration. -/
noncomputable def defaultCfg : MatcherCfg :=
  ⟨1, 1, 1, 1, none, 100, Real.pi / 4, true⟩

/-- The result dictionary of `StrokeMatcher.match`. -/
structure MatchResult where
  mapping : Option (List ℕ)
  fitness : ℝ
  errors : List ErrorRecord
  generations : ℕ
  historyBest : List ℝ
  historyAvg : List ℝ
  writtenFeatures : List StrokeFeatures
  referenceFeatures : List StrokeFeatures
  writtenMeta : Option NormMeta
  referenceMeta : Option NormMeta

/-- `StrokeMatcher.match`: normalize both stroke lists, extract features,
run the GA (with the source's fixed GA controls), classify errors on the
winning mapping, and assemble the result record. -/
noncomputable def matchStrokes (cfg : MatcherCfg) (written reference : List Stroke)
    (o : Oracle) : Except PyErr MatchResult := do
  let (wNorm, wMeta) ←
    if cfg.normFlag then normalize 100 written else pure (written, none)
  let (rNorm, rMeta) ←
    if cfg.normFlag then normalize 100 reference else pure (reference, none)
  let wf := wNorm.map extract
  let rf := rNorm.map extract
  let fp : FitnessParams := ⟨cfg.alpha, cfg.beta, cfg.gamma, cfg.epsilon⟩
  let ga := mkGA written.length reference.length cfg.populationSize
    cfg.maxGenerations (4 / 5) (1 / 10) 3 10
  let gaRes ← ga.evolve (evaluateChromosome fp wf rf) o
  match gaRes.mapping with
  | none => .error .noneIterate
  | some m =>
    pure ⟨some m, gaRes.fitness, detectErrors m wf rf cfg.angleThreshold,
      gaRes.generations, gaRes.historyBest, gaRes.historyAvg, wf, rf, wMeta, rMeta⟩

/-! ## Projections used to state concrete facts about runs -/

/-- The mapping of a successful match (`none` when the call raised). -/
def mappingOf (r : Except PyErr MatchResult) : Option (Option (List ℕ)) :=
  match r with
  | .ok res => some res.mapping
  | .error _ => none

/-- The error list of a successful match. -/
def errorsOf (r : Except PyErr MatchResult) : Option (List ErrorRecord) :=
  match r with
  | .ok res => some res.errors
  | .error _ => none

/-- The best-fitness history of a successful match (empty on error). -/
def historyOf (r : Except PyErr MatchResult) : List ℝ :=
  match r with
  | .ok res => res.historyBest
  | .error _ => []

/-- The generation count of a successful GA run. -/
def gaGenerations {F : Type} (r : Except PyErr (GAResult F)) : Option ℕ :=
  match r with
  | .ok res => some res.generations
  | .error _ => none

/-- The mapping of a successful GA run. -/
def gaMapping {F : Type} (r : Except PyErr (GAResult F)) : Option (Option (List ℕ)) :=
  match r with
  | .ok res => some res.mapping
  | .error _ => none

/-- The assignment-shape invariant: length `nWritten`, every gene at most
`nReference` (genes are naturals, so the lower bound `0` is intrinsic). -/
def chromOK (W R : ℕ) (c : List ℕ) : Prop :=
  c.length = W ∧ ∀ g ∈ c, g ≤ R

/-- Features whose angle lies in `[-π, π]`; true of every extracted
feature and of the default feature. -/
def angleOK (f : StrokeFeatures) : Prop := |f.angle| ≤ Real.pi

/-- The best-fitness history of a GA run (empty on error). -/
def gaHistoryBest {F : Type} (r : Except PyErr (GAResult F)) : List F :=
  match r with
  | .ok res => res.historyBest
  | .error _ => []

/-- The oracle used by the concrete counterexample runs: natural draws
all `0` (so every two-element shuffle swaps) and float draws all `1` (so
crossover and mutation never fire). -/
def oracleSwap : Oracle := ⟨fun _ => 0, fun _ => 1⟩

/-- Two one-point strokes used by the concrete counterexample input. -/
def sPtA : Stroke := [[0], [0]]

/-- Second one-point stroke, placed away from `sPtA`. -/
def sPtB : Stroke := [[1], [1]]

/-- A degenerate but valid stroke: two samples at the origin, two rows. -/
def sZero : Stroke := [[0, 0], [0, 0]]

/-- The written indices mapped to reference gene `r`, in increasing
order: the value the insertion-order dictionary associates with key `r`. -/
def groupOf (m : List ℕ) (r : ℕ) : List ℕ :=
  (List.range m.length).filter fun i => m.getD i 0 = r

/-- The distinct genes of `m` in first-occurrence order: the key order of
the Python dict. -/
def keysIn (m : List ℕ) : List ℕ :=
  m.foldl (fun ks r => if r ∈ ks then ks else ks ++ [r]) []

/-- Reversing the drawing direction of a stroke: every row reversed
pointwise. -/
def revStroke (s : Stroke) : Stroke := s.map List.reverse

/-- Euclidean distance between two sample points. -/
noncomputable def dist2 (p q : ℝ × ℝ) : ℝ := norm2 (q.1 - p.1, q.2 - p.2)

/-- The identity mapping `[1, 2, …, R]`. -/
def identityMap (R : ℕ) : List ℕ := List.range' 1 R

/-- A stroke whose chord is non-zero but shorter than the extractor's
`1e-6` guard. -/
noncomputable def sTiny : Stroke := [[0, 1 / 10000000], [0, 0]]

/-- All x-samples of a stroke list, in order (`all_x`). -/
def allXOf (strokes : List Stroke) : List ℝ := strokes.flatMap fun s => s.getD 0 []

/-- All y-samples of a stroke list, in order (`all_y`). -/
def allYOf (strokes : List Stroke) : List ℝ := strokes.flatMap fun s => s.getD 1 []

/-- The scale factor the normalizer computes. -/
noncomputable def scaleOf (t : ℝ) (strokes : List Stroke) : ℝ :=
  let width := listMax (allXOf strokes) - listMin (allXOf strokes)
  let height := listMax (allYOf strokes) - listMin (allYOf strokes)
  if width = 0 ∧ height = 0 then 1
  else if width = 0 then t / height
  else if height = 0 then t / width
  else t / max width height

/-- The metadata record of the normalizer. -/
noncomputable def metaOf (t : ℝ) (strokes : List Stroke) : NormMeta :=
  ⟨listMin (allXOf strokes), listMin (allYOf strokes),
   listMax (allXOf strokes), listMax (allYOf strokes),
   scaleOf t strokes,
   listMax (allXOf strokes) - listMin (allXOf strokes),
   listMax (allYOf strokes) - listMin (allYOf strokes)⟩

/-- A vertical two-point stroke with a long chord. -/
noncomputable def sVert : Stroke := [[0, 0], [0, 100]]

/-- A three-row stroke: x row, y row, and one extra channel. -/
noncomputable def sThree : Stroke := [[0, 1], [0, 2], [5, 7]]

/-- The output of normalizing `[sZero]`, used as a concrete witness
input. -/
noncomputable def normPair0 : List Stroke × Option NormMeta :=
  ([sZero].map (normStroke (listMin (allXOf [sZero])) (listMin (allYOf [sZero]))
    (scaleOf 100 [sZero])), some (metaOf 100 [sZero]))

/-- The output of normalizing `[sThree]`, used as a concrete witness
input. -/
noncomputable def normPair3 : List Stroke × Option NormMeta :=
  ([sThree].map (normStroke (listMin (allXOf [sThree])) (listMin (allYOf [sThree]))
    (scaleOf 100 [sThree])), some (metaOf 100 [sThree]))

/-! ## Basic lemmas about the random primitives -/

lemma swapIdx_length (l : List ℕ) (i j : ℕ) : (swapIdx l i j).length = l.length := by
  unfold swapIdx
  rcases h1 : l.get? i with _ | a <;> rcases h2 : l.get? j with _ | b <;> simp

lemma mem_of_mem_swapIdx {x : ℕ} {l : List ℕ} {i j : ℕ}
    (h : x ∈ swapIdx l i j) : x ∈ l := by
  unfold swapIdx at h
  rcases h1 : l.get? i with _ | a <;> rcases h2 : l.get? j with _ | b <;>
    rw [h1, h2] at h
  · exact h
  · exact h
  · exact h
  · rcases List.mem_or_eq_of_mem_set h with h' | rfl
    · rcases List.mem_or_eq_of_mem_set h' with h'' | rfl
      · exact h''
      · exact List.get?_mem h2
    · exact List.get?_mem h1

lemma fyShuffle_length (o : Oracle) (n : ℕ) (l : List ℕ) (p : ℕ) :
    (fyShuffle o n l p).1.length = l.length := by
  induction n generalizing l p with
  | zero => rfl
  | succ i ih =>
    simp only [fyShuffle]
    rw [ih, swapIdx_length]

lemma mem_of_mem_fyShuffle {o : Oracle} {n : ℕ} {l : List ℕ} {p : ℕ} {x : ℕ}
    (h : x ∈ (fyShuffle o n l p).1) : x ∈ l := by
  induction n generalizing l p with
  | zero => exact h
  | succ i ih => exact mem_of_mem_swapIdx (ih (by simpa [fyShuffle] using h))

lemma shuffle_length (o : Oracle) (l : List ℕ) (p : ℕ) :
    (shuffle o l p).1.length = l.length :=
  fyShuffle_length o _ l p

lemma mem_of_mem_shuffle {o : Oracle} {l : List ℕ} {p : ℕ} {x : ℕ}
    (h : x ∈ (shuffle o l p).1) : x ∈ l :=
  mem_of_mem_fyShuffle h

lemma shuffle_singleton (o : Oracle) (a : ℕ) (p : ℕ) :
    shuffle o [a] p = ([a], p) := rfl

lemma iidNats_length (o : Oracle) (lo hi n p : ℕ) :
    (iidNats o lo hi n p).1.length = n := by
  induction n generalizing p with
  | zero => rfl
  | succ k ih => simpa [iidNats] using ih _

lemma iidNats_mem {o : Oracle} {lo hi n p : ℕ} {x : ℕ}
    (h : x ∈ (iidNats o lo hi n p).1) (hlohi : lo < hi) : lo ≤ x ∧ x < hi := by
  induction n generalizing p with
  | zero => simp [iidNats] at h
  | succ k ih =>
    simp only [iidNats, List.mem_cons] at h
    rcases h with rfl | h
    · constructor
      · exact Nat.le_add_right _ _
      · have : o.nats p % (hi - lo) < hi - lo := Nat.mod_lt _ (by omega)
        simp only [randNat]
        omega
    · exact ih h

lemma pickDistinct_ok {o : Oracle} {k : ℕ} {avail : List ℕ} {p : ℕ}
    (h : k ≤ avail.length) :
    ∃ r, pickDistinct o k avail p = .ok r ∧ r.1.length = k ∧ ∀ x ∈ r.1, x ∈ avail := by
  induction k generalizing avail p with
  | zero => exact ⟨([], p), rfl, rfl, by simp⟩
  | succ k ih =>
    match avail with
    | [] => simp at h
    | a :: rest =>
      have hidx : o.nats p % (a :: rest).length < (a :: rest).length :=
        Nat.mod_lt _ (Nat.succ_pos rest.length)
      have herase : ((a :: rest).eraseIdx (o.nats p % (a :: rest).length)).length =
          (a :: rest).length - 1 := by
        rw [List.length_eraseIdx, if_pos hidx]
      obtain ⟨r, hr, hlen, hmem⟩ :=
        @ih ((a :: rest).eraseIdx (o.nats p % (a :: rest).length)) (p + 1)
          (by rw [herase]; exact Nat.le_sub_one_of_lt (Nat.lt_of_succ_le h))
      refine ⟨((a :: rest).getD (o.nats p % (a :: rest).length) 0 :: r.1, r.2), ?_, ?_, ?_⟩
      · simp only [pickDistinct]
        rw [hr]
        rfl
      · simpa using hlen
      · intro x hx
        rcases List.mem_cons.mp hx with rfl | hx
        · rw [List.getD_eq_getElem _ _ hidx]
          exact List.getElem_mem _
        · exact List.mem_of_mem_eraseIdx (hmem x hx)

lemma tournamentWinner_mem {F : Type} [LinearOrder F] (t : List ℕ × F)
    (ts : List (List ℕ × F)) :
    tournamentWinner t ts ∈ (t :: ts).map Prod.fst := by
  induction ts generalizing t with
  | nil => simp [tournamentWinner]
  | cons u us ih =>
    unfold tournamentWinner at ih ⊢
    rcases le_or_lt u.2 t.2 with h | h
    · have := ih t
      simp only [List.foldl_cons, if_neg (not_lt.mpr h)]
      simp only [List.map_cons, List.mem_cons] at this ⊢
      tauto
    · have := ih u
      simp only [List.foldl_cons, if_pos h]
      simp only [List.map_cons, List.mem_cons] at this ⊢
      tauto

lemma foldl_max_le_self {F : Type} [LinearOrder F] (x : F) (xs : List F) :
    x ≤ xs.foldl max x := by
  induction xs generalizing x with
  | nil => simp
  | cons y ys ih => exact le_trans (le_max_left x y) (ih _)

lemma le_foldl_max {F : Type} [LinearOrder F] {x y : F} {xs : List F}
    (h : y ∈ xs) : y ≤ xs.foldl max x := by
  induction xs generalizing x with
  | nil => simp at h
  | cons z zs ih =>
    rcases List.mem_cons.mp h with rfl | h
    · exact le_trans (le_max_right x y) (foldl_max_le_self _ _)
    · exact ih h

lemma foldl_max_mem {F : Type} [LinearOrder F] (x : F) (xs : List F) :
    xs.foldl max x ∈ x :: xs := by
  induction xs generalizing x with
  | nil => simp
  | cons y ys ih =>
    rw [List.foldl_cons]
    rcases List.mem_cons.mp (ih (max x y)) with h | h
    · rw [h]
      rcases max_choice x y with h' | h' <;> rw [h'] <;> simp
    · exact List.mem_cons.mpr (Or.inr (List.mem_cons.mpr (Or.inr h)))

lemma maxList_ok {F : Type} [LinearOrder F] {xs : List F} (h : xs ≠ []) :
    ∃ v, maxList xs = .ok v ∧ v ∈ xs ∧ ∀ y ∈ xs, y ≤ v := by
  match xs with
  | [] => exact absurd rfl h
  | x :: rest =>
    refine ⟨rest.foldl max x, rfl, foldl_max_mem x rest, ?_⟩
    intro y hy
    rcases List.mem_cons.mp hy with rfl | hy
    · exact foldl_max_le_self _ _
    · exact le_foldl_max hy

lemma maxList_all_eq {F : Type} [LinearOrder F] {xs : List F} {v : F}
    (hne : xs ≠ []) (hall : ∀ y ∈ xs, y = v) : maxList xs = .ok v := by
  obtain ⟨w, hw, hmem, _⟩ := maxList_ok hne
  rw [hw, hall w hmem]

lemma indexOfFirst_map_getD {F : Type} [DecidableEq F] (fit : List ℕ → F)
    (pop : List (List ℕ)) {v : F} (h : v ∈ pop.map fit) :
    pop.getD (indexOfFirst v (pop.map fit)) [] ∈ pop ∧
      fit (pop.getD (indexOfFirst v (pop.map fit)) []) = v := by
  have hex : ∃ x ∈ pop.map fit, (fun x => decide (x = v)) x = true := by
    exact ⟨v, h, by simp⟩
  have hlt : (pop.map fit).findIdx (fun x => decide (x = v)) < (pop.map fit).length :=
    List.findIdx_lt_length_of_exists hex
  have hlt' : (pop.map fit).findIdx (fun x => decide (x = v)) < pop.length := by
    simpa using hlt
  have hpred := @List.findIdx_getElem _ (fun x => decide (x = v)) (pop.map fit) hlt
  rw [List.getElem_map] at hpred
  simp only [decide_eq_true_eq] at hpred
  rw [indexOfFirst, List.getD_eq_getElem _ _ hlt']
  exact ⟨List.getElem_mem _, hpred⟩

/-! ## Stable-run machinery

A predicate `S` of chromosomes that is closed under the genetic operators
(for the oracle at hand) confines a whole run of `evolve`.  When the
creator always produces the same chromosome `c`, `S c` holds, every
`S`-chromosome scores at most `fit c` and `fit c` is positive, the run
converges after exactly 11 generations (one improvement, then ten
stagnant) with `c` as the winner.  This is the engine behind the concrete
end-to-end runs below. -/

lemma crossover_self (ga : GeneticAlgorithm) (o : Oracle) (c : List ℕ) (p : ℕ) :
    (ga.crossover o c c p).1 = (c, c) := by
  unfold GeneticAlgorithm.crossover
  by_cases h2 : c.length < 2
  · rw [if_pos h2]
  · rw [if_neg h2]
    by_cases hr : (randRat o p).1 < ga.crossoverRate
    · rw [if_pos hr]
      simp [List.take_append_drop]
    · rw [if_neg hr]

lemma getD_mem_of_lt (pop : List (List ℕ)) {i : ℕ} (h : i < pop.length) :
    pop.getD i [] ∈ pop := by
  rw [List.getD_eq_getElem _ _ h]
  exact List.getElem_mem _

lemma except_bind_ok {ε α β : Type} (a : α) (f : α → Except ε β) :
    (Except.ok a : Except ε α).bind f = f a := rfl

lemma tournamentSelection_stable {F : Type} [LinearOrderedField F]
    (ga : GeneticAlgorithm) (o : Oracle) (pop : List (List ℕ)) (fits : List F)
    (S : List ℕ → Prop)
    (hT : 1 ≤ ga.tournamentSize) (hTpop : ga.tournamentSize ≤ pop.length)
    (hS : ∀ d ∈ pop, S d) (p : ℕ) :
    ∃ r, ga.tournamentSelection o pop fits p = .ok r ∧ S r.1 := by
  obtain ⟨r0, hr0, hlen, hmem⟩ :=
    @pickDistinct_ok o ga.tournamentSize (List.range pop.length) p
      (by simpa using hTpop)
  have hmem' : ∀ i ∈ r0.1, i < pop.length := by
    intro i hi
    simpa using hmem i hi
  unfold GeneticAlgorithm.tournamentSelection
  rw [hr0, except_bind_ok]
  rcases hl : r0.1 with _ | ⟨i, is⟩
  · rw [hl] at hlen
    simp at hlen
    omega
  · rw [List.map_cons]
    have hwin := tournamentWinner_mem (pop.getD i [], fits.getD i 0)
      (is.map fun j => (pop.getD j [], fits.getD j 0))
    refine ⟨_, rfl, ?_⟩
    simp only [List.map_cons, List.map_map] at hwin
    rcases List.mem_cons.mp hwin with h | h
    · rw [h]
      exact hS _ (getD_mem_of_lt pop (hmem' i (by rw [hl]; simp)))
    · simp only [List.mem_map, Function.comp] at h
      obtain ⟨j, hj, hje⟩ := h
      rw [← hje]
      refine hS _ (getD_mem_of_lt pop (hmem' j ?_))
      rw [hl]
      exact List.mem_cons.mpr (Or.inr hj)

lemma buildPop_stable {F : Type} [LinearOrderedField F]
    (ga : GeneticAlgorithm) (o : Oracle) (pop : List (List ℕ)) (fits : List F)
    (S : List ℕ → Prop)
    (hT : 1 ≤ ga.tournamentSize) (hTpop : ga.tournamentSize ≤ pop.length)
    (hS : ∀ d ∈ pop, S d)
    (hcross : ∀ a b p, S a → S b →
      S (ga.crossover o a b p).1.1 ∧ S (ga.crossover o a b p).1.2)
    (hmut : ∀ d p, S d → S (ga.mutate o d p).1) :
    ∀ fuel acc p, acc ≠ [] → (∀ d ∈ acc, S d) →
      ∃ r, buildPop ga o pop fits fuel acc p = .ok r ∧
        r.1.head? = acc.head? ∧ (∀ d ∈ r.1, S d) ∧
        (ga.populationSize ≤ acc.length + 2 * fuel → ga.populationSize ≤ r.1.length) := by
  intro fuel
  induction fuel with
  | zero =>
    intro acc p hne hacc
    exact ⟨(acc, p), rfl, rfl, hacc, by intro h; simpa using h⟩
  | succ fuel ih =>
    intro acc p hne hacc
    by_cases hlt : acc.length < ga.populationSize
    · obtain ⟨s1, hs1, hs1S⟩ :=
        tournamentSelection_stable ga o pop fits S hT hTpop hS p
      obtain ⟨s2, hs2, hs2S⟩ :=
        tournamentSelection_stable ga o pop fits S hT hTpop hS s1.2
      have hcr := hcross s1.1 s2.1 s2.2 hs1S hs2S
      have hm1 := hmut (ga.crossover o s1.1 s2.1 s2.2).1.1
        (ga.crossover o s1.1 s2.1 s2.2).2 hcr.1
      have hm2 := hmut (ga.crossover o s1.1 s2.1 s2.2).1.2
        (ga.mutate o (ga.crossover o s1.1 s2.1 s2.2).1.1
          (ga.crossover o s1.1 s2.1 s2.2).2).2 hcr.2
      set c1 := ga.mutate o (ga.crossover o s1.1 s2.1 s2.2).1.1
        (ga.crossover o s1.1 s2.1 s2.2).2 with hc1
      set c2 := ga.mutate o (ga.crossover o s1.1 s2.1 s2.2).1.2 c1.2 with hc2
      obtain ⟨r, hr, hhead, hrS, hlen⟩ := ih (acc ++ [c1.1, c2.1]) c2.2
        (by simp)
        (by
          intro d hd
          rcases List.mem_append.mp hd with h | h
          · exact hacc d h
          · rcases List.mem_cons.mp h with rfl | h
            · exact hm1
            · rcases List.mem_cons.mp h with rfl | h
              · exact hm2
              · simp at h)
      refine ⟨r, ?_, ?_, hrS, ?_⟩
      · rw [buildPop, if_pos hlt, hs1, except_bind_ok, hs2, except_bind_ok]
        exact hr
      · rw [hhead, List.head?_append]
        cases acc with
        | nil => exact absurd rfl hne
        | cons a t => rfl
      · intro h
        apply hlen
        simp only [List.length_append, List.length_cons, List.length_nil]
        omega
    · exact ⟨(acc, p), by rw [buildPop, if_neg hlt], rfl, hacc,
        fun _ => not_lt.mp hlt⟩

lemma evolveLoop_stable {F : Type} [LinearOrderedField F] [DecidableEq F]
    (ga : GeneticAlgorithm) (fit : List ℕ → F) (o : Oracle)
    (S : List ℕ → Prop) (c : List ℕ)
    (hconv : ga.convergenceGenerations = 10)
    (hT : 1 ≤ ga.tournamentSize) (hTP : ga.tournamentSize ≤ ga.populationSize)
    (hcross : ∀ a b p, S a → S b →
      S (ga.crossover o a b p).1.1 ∧ S (ga.crossover o a b p).1.2)
    (hmut : ∀ d p, S d → S (ga.mutate o d p).1)
    (hfit_le : ∀ d, S d → fit d ≤ fit c) :
    ∀ g stag pop hb ha p,
      pop.length = ga.populationSize →
      pop.head? = some c →
      (∀ d ∈ pop, S d) →
      stag < 10 →
      10 - stag ≤ g →
      ∃ st', evolveLoop ga fit o g ⟨pop, some c, fit c, stag, hb, ha, p⟩ = .ok st' ∧
        st'.bestChrom = some c ∧ st'.bestFit = fit c ∧
        st'.histBest = hb ++ List.replicate (10 - stag) (fit c) := by
  intro g
  induction g with
  | zero => intro stag pop hb ha p _ _ _ hs hg; omega
  | succ g ih =>
    intro stag pop hb ha p hplen hphead hpS hs hg
    have hcpop : c ∈ pop := by
      cases pop with
      | nil => simp at hphead
      | cons a t =>
        simp only [List.head?_cons, Option.some.injEq] at hphead
        rw [← hphead]
        exact List.mem_cons_self a t
    have hpne : pop.map fit ≠ [] := by
      simp only [ne_eq, List.map_eq_nil_iff]
      intro h
      rw [h] at hcpop
      simp at hcpop
    have hmax : maxList (pop.map fit) = .ok (fit c) := by
      obtain ⟨v, hv, hvmem, hvle⟩ := maxList_ok hpne
      have h1 : v ≤ fit c := by
        obtain ⟨d, hd, rfl⟩ := List.mem_map.mp hvmem
        exact hfit_le d (hpS d hd)
      have h2 : fit c ≤ v := hvle _ (List.mem_map.mpr ⟨c, hcpop, rfl⟩)
      rw [hv, le_antisymm h1 h2]
    have hupd : ¬ ((⟨pop, some c, fit c, stag, hb, ha, p⟩ : GAState F).bestFit <
        fit c) := lt_irrefl _
    rw [evolveLoop]
    simp only [hmax, hupd, if_false, ite_false, hconv]
    by_cases h10 : 10 ≤ stag + 1
    · rw [if_pos h10]
      have hstag : stag = 9 := by omega
      refine ⟨_, rfl, rfl, rfl, ?_⟩
      simp [hstag]
    · rw [if_neg h10]
      have hScpop : S c := hpS c hcpop
      obtain ⟨r, hbuild, hrhead, hrS, hrlen⟩ :=
        buildPop_stable ga o pop (pop.map fit) S hT (by omega) hpS hcross hmut
          (ga.populationSize + 1) [c] p (by simp) (by
            intro d hd
            rcases List.mem_cons.mp hd with rfl | hd
            · exact hScpop
            · simp at hd)
      rw [hbuild]
      have hPpos : 1 ≤ ga.populationSize := le_trans hT hTP
      have hrlen' : ga.populationSize ≤ r.1.length := hrlen (by simp; omega)
      have htlen : (r.1.take ga.populationSize).length = ga.populationSize := by
        rw [List.length_take]
        omega
      have hthead : (r.1.take ga.populationSize).head? = some c := by
        rw [List.head?_take, if_neg (by omega)]
        rw [hrhead]
        rfl
      have htS : ∀ d ∈ r.1.take ga.populationSize, S d := fun d hd =>
        hrS d (List.take_subset _ _ hd)
      obtain ⟨st', hst', hb', hf', hh'⟩ := ih (stag + 1) (r.1.take ga.populationSize)
        (hb ++ [fit c]) _ r.2 htlen hthead htS (by omega) (by omega)
      refine ⟨st', hst', hb', hf', ?_⟩
      rw [hh', List.append_assoc]
      congr 1
      have : 10 - stag = (10 - (stag + 1)) + 1 := by omega
      rw [this, List.replicate_succ]
      rfl

lemma initPop_replicate (ga : GeneticAlgorithm) (o : Oracle) (c : List ℕ)
    (hcreate : ∀ p, (ga.createChromosome o p).1 = c) :
    ∀ n p, (initPop ga o n p).1 = List.replicate n c := by
  intro n
  induction n with
  | zero => intro p; rfl
  | succ k ih =>
    intro p
    simp only [initPop, List.replicate_succ, ih, hcreate]

/-- A fully stable run of `evolve`: when chromosome creation always yields
`c`, the operators keep every reachable chromosome inside `S`, every
`S`-chromosome scores at most `fit c`, and `fit c` is positive, the GA
improves once (generation 0), stagnates for ten generations and stops,
returning `c` after exactly 11 recorded generations. -/
lemma evolve_stable {F : Type} [LinearOrderedField F] [DecidableEq F]
    (ga : GeneticAlgorithm) (fit : List ℕ → F) (o : Oracle)
    (S : List ℕ → Prop) (c : List ℕ)
    (hmaxg : ga.maxGenerations = 100) (hconv : ga.convergenceGenerations = 10)
    (hT : 1 ≤ ga.tournamentSize) (hTP : ga.tournamentSize ≤ ga.populationSize)
    (hcreate : ∀ p, (ga.createChromosome o p).1 = c)
    (hcS : S c)
    (hcross : ∀ a b p, S a → S b →
      S (ga.crossover o a b p).1.1 ∧ S (ga.crossover o a b p).1.2)
    (hmut : ∀ d p, S d → S (ga.mutate o d p).1)
    (hfit_le : ∀ d, S d → fit d ≤ fit c)
    (hfit_pos : 0 < fit c) :
    ∃ res, ga.evolve fit o = .ok res ∧ res.mapping = some c ∧
      res.fitness = fit c ∧ res.generations = 11 ∧
      res.historyBest = List.replicate 11 (fit c) := by
  have hPpos : 1 ≤ ga.populationSize := le_trans hT hTP
  have hpop0 : (initPop ga o ga.populationSize 0).1 =
      List.replicate ga.populationSize c := initPop_replicate ga o c hcreate _ _
  have hfits0 : (List.replicate ga.populationSize c).map fit =
      List.replicate ga.populationSize (fit c) := List.map_replicate
  have hmax0 : maxList ((List.replicate ga.populationSize c).map fit) =
      .ok (fit c) := by
    refine maxList_all_eq ?_ ?_
    · rw [hfits0]
      simp only [ne_eq, List.replicate_eq_nil_iff]  -- nonempty
      omega
    · intro y hy
      rw [hfits0] at hy
      exact (List.mem_replicate.mp hy).2
  have hidx0 : indexOfFirst (fit c) ((List.replicate ga.populationSize c).map fit) = 0 := by
    rw [hfits0]
    obtain ⟨k, hk⟩ : ∃ k, ga.populationSize = k + 1 := ⟨ga.populationSize - 1, by omega⟩
    rw [hk, List.replicate_succ, indexOfFirst, List.findIdx_cons]
    simp
  have hgetD0 : (List.replicate ga.populationSize c).getD 0 [] = c := by
    obtain ⟨k, hk⟩ : ∃ k, ga.populationSize = k + 1 := ⟨ga.populationSize - 1, by omega⟩
    rw [hk, List.replicate_succ]
    rfl
  have hrepS : ∀ d ∈ List.replicate ga.populationSize c, S d := by
    intro d hd
    rw [(List.mem_replicate.mp hd).2]
    exact hcS
  -- the generation-0 step
  obtain ⟨r, hbuild, hrhead, hrS, hrlen⟩ :=
    buildPop_stable ga o (List.replicate ga.populationSize c)
      ((List.replicate ga.populationSize c).map fit) S hT
      (by rw [List.length_replicate]; exact hTP) hrepS hcross hmut
      (ga.populationSize + 1) [c] (initPop ga o ga.populationSize 0).2 (by simp)
      (by
        intro d hd
        rcases List.mem_cons.mp hd with rfl | hd
        · exact hcS
        · simp at hd)
  have hrlen' : ga.populationSize ≤ r.1.length := hrlen (by simp; omega)
  have htlen : (r.1.take ga.populationSize).length = ga.populationSize := by
    rw [List.length_take]; omega
  have hthead : (r.1.take ga.populationSize).head? = some c := by
    rw [List.head?_take, if_neg (by omega), hrhead]; rfl
  have htS : ∀ d ∈ r.1.take ga.populationSize, S d := fun d hd =>
    hrS d (List.take_subset _ _ hd)
  obtain ⟨st', hst', hbc', hbf', hh'⟩ :=
    evolveLoop_stable ga fit o S c hconv hT hTP hcross hmut hfit_le
      99 0 (r.1.take ga.populationSize) [fit c] _ r.2 htlen hthead htS
      (by omega) (by omega)
  have hloop : evolveLoop ga fit o 100
      ⟨List.replicate ga.populationSize c, none, 0, 0, [], [],
        (initPop ga o ga.populationSize 0).2⟩ = .ok st' := by
    rw [show (100 : ℕ) = 99 + 1 from rfl, evolveLoop]
    simp only [hmax0, hidx0, hgetD0]
    rw [if_pos hfit_pos]
    simp only [if_pos hfit_pos, hconv]
    rw [if_neg (by omega : ¬ (10 ≤ 0))]
    rw [hbuild]
    simp only [List.nil_append]
    exact hst'
  refine ⟨⟨st'.bestChrom, st'.bestFit, st'.histBest.length, st'.histBest, st'.histAvg⟩,
    ?_, ?_, ?_, ?_, ?_⟩
  · simp only [GeneticAlgorithm.evolve, hmaxg, hpop0]
    rw [hloop]
    rfl
  · simpa using hbc'
  · simpa using hbf'
  · simp only [hh', List.nil_append, List.length_replicate]
    rfl
  · simpa using hh'

/-! ## Inversion lemmas for successful runs -/

lemma pickDistinct_ok_mem {o : Oracle} {k : ℕ} {avail : List ℕ} {p : ℕ}
    {r : List ℕ × ℕ} (h : pickDistinct o k avail p = .ok r) :
    ∀ x ∈ r.1, x ∈ avail := by
  induction k generalizing avail p r with
  | zero =>
    simp only [pickDistinct, Except.ok.injEq] at h
    rw [← h]
    simp
  | succ k ih =>
    match avail with
    | [] => simp [pickDistinct] at h
    | a :: rest =>
      simp only [pickDistinct] at h
      rcases hrec : pickDistinct o k ((a :: rest).eraseIdx
          (o.nats p % (a :: rest).length)) (p + 1) with e | r'
      · rw [hrec] at h
        simp [Except.map] at h
      · rw [hrec] at h
        simp only [Except.map, Except.ok.injEq] at h
        intro x hx
        rw [← h] at hx
        rcases List.mem_cons.mp hx with rfl | hx
        · have hidx : o.nats p % (a :: rest).length < (a :: rest).length :=
            Nat.mod_lt _ (Nat.succ_pos rest.length)
          rw [List.getD_eq_getElem _ _ hidx]
          exact List.getElem_mem _
        · exact List.mem_of_mem_eraseIdx (ih hrec x hx)

lemma tournamentSelection_ok_mem {F : Type} [LinearOrderedField F]
    {ga : GeneticAlgorithm} {o : Oracle} {pop : List (List ℕ)} {fits : List F}
    {p : ℕ} {r : List ℕ × ℕ}
    (h : ga.tournamentSelection o pop fits p = .ok r) : r.1 ∈ pop := by
  unfold GeneticAlgorithm.tournamentSelection at h
  rcases hpick : pickDistinct o ga.tournamentSize (List.range pop.length) p with e | r0
  · rw [hpick] at h
    simp [Except.bind] at h
  · rw [hpick, except_bind_ok] at h
    have hmem := pickDistinct_ok_mem hpick
    rcases hl : r0.1 with _ | ⟨i, is⟩
    · rw [hl] at h
      simp at h
    · rw [hl] at h hmem
      rw [List.map_cons] at h
      simp only [Except.ok.injEq] at h
      have hwin := tournamentWinner_mem (pop.getD i [], fits.getD i 0)
        (is.map fun j => (pop.getD j [], fits.getD j 0))
      subst h
      simp only [List.map_cons, List.map_map] at hwin
      rcases List.mem_cons.mp hwin with hw | hw
      · rw [hw]
        refine getD_mem_of_lt pop ?_
        simpa using hmem i (by simp)
      · simp only [List.mem_map, Function.comp] at hw
        obtain ⟨j, hj, hje⟩ := hw
        rw [← hje]
        refine getD_mem_of_lt pop ?_
        simpa using hmem j (List.mem_cons.mpr (Or.inr hj))

lemma buildPop_ok_head {F : Type} [LinearOrderedField F]
    {ga : GeneticAlgorithm} {o : Oracle} {pop : List (List ℕ)} {fits : List F} :
    ∀ {fuel : ℕ} {acc : List (List ℕ)} {p : ℕ} {r : List (List ℕ) × ℕ},
      buildPop ga o pop fits fuel acc p = .ok r → acc ≠ [] →
      r.1.head? = acc.head? := by
  intro fuel
  induction fuel with
  | zero =>
    intro acc p r h _
    simp only [buildPop, Except.ok.injEq] at h
    rw [← h]
  | succ fuel ih =>
    intro acc p r h hne
    rw [buildPop] at h
    by_cases hlt : acc.length < ga.populationSize
    · rw [if_pos hlt] at h
      rcases hs1 : @GeneticAlgorithm.tournamentSelection F _ ga o pop fits p with e | s1
      · rw [hs1] at h
        simp [Except.bind] at h
      · rw [hs1, except_bind_ok] at h
        rcases hs2 : @GeneticAlgorithm.tournamentSelection F _ ga o pop fits s1.2 with e | s2
        · rw [hs2] at h
          simp [Except.bind] at h
        · rw [hs2, except_bind_ok] at h
          have := ih h (by simp)
          rw [this, List.head?_append]
          cases acc with
          | nil => exact absurd rfl hne
          | cons a t => rfl
    · rw [if_neg hlt] at h
      simp only [Except.ok.injEq] at h
      rw [← h]

lemma buildPop_ok_all {F : Type} [LinearOrderedField F]
    {ga : GeneticAlgorithm} {o : Oracle} {pop : List (List ℕ)} {fits : List F}
    (Q : List ℕ → Prop)
    (hQpop : ∀ d ∈ pop, Q d)
    (hcross : ∀ a b p, Q a → Q b →
      Q (ga.crossover o a b p).1.1 ∧ Q (ga.crossover o a b p).1.2)
    (hmut : ∀ d p, Q d → Q (ga.mutate o d p).1) :
    ∀ {fuel : ℕ} {acc : List (List ℕ)} {p : ℕ} {r : List (List ℕ) × ℕ},
      buildPop ga o pop fits fuel acc p = .ok r → (∀ d ∈ acc, Q d) →
      ∀ d ∈ r.1, Q d := by
  intro fuel
  induction fuel with
  | zero =>
    intro acc p r h hacc
    simp only [buildPop, Except.ok.injEq] at h
    rw [← h]
    exact hacc
  | succ fuel ih =>
    intro acc p r h hacc
    rw [buildPop] at h
    by_cases hlt : acc.length < ga.populationSize
    · rw [if_pos hlt] at h
      rcases hs1 : @GeneticAlgorithm.tournamentSelection F _ ga o pop fits p with e | s1
      · rw [hs1] at h
        simp [Except.bind] at h
      · rw [hs1, except_bind_ok] at h
        rcases hs2 : @GeneticAlgorithm.tournamentSelection F _ ga o pop fits s1.2 with e | s2
        · rw [hs2] at h
          simp [Except.bind] at h
        · rw [hs2, except_bind_ok] at h
          have hq1 : Q s1.1 := hQpop _ (tournamentSelection_ok_mem hs1)
          have hq2 : Q s2.1 := hQpop _ (tournamentSelection_ok_mem hs2)
          have hcr := hcross s1.1 s2.1 s2.2 hq1 hq2
          refine ih h ?_
          intro d hd
          rcases List.mem_append.mp hd with hd | hd
          · exact hacc d hd
          · rcases List.mem_cons.mp hd with rfl | hd
            · exact hmut _ _ hcr.1
            · rcases List.mem_cons.mp hd with rfl | hd
              · exact hmut _ _ hcr.2
              · simp at hd
    · rw [if_neg hlt] at h
      simp only [Except.ok.injEq] at h
      rw [← h]
      exact hacc

/-! ## Monotonicity of the best-fitness history (elitism) -/

lemma evolveLoop_chain {F : Type} [LinearOrderedField F] [DecidableEq F]
    (ga : GeneticAlgorithm) (fit : List ℕ → F) (o : Oracle) :
    ∀ g st st', evolveLoop ga fit o g st = .ok st' →
      List.Chain' (· ≤ ·) st.histBest →
      (∀ x ∈ st.histBest.getLast?, ∀ hd ∈ st.population.head?, x ≤ fit hd) →
      (∀ b ∈ st.bestChrom, fit b = st.bestFit) →
      List.Chain' (· ≤ ·) st'.histBest := by
  intro g
  induction g with
  | zero =>
    intro st st' h h1 _ _
    simp only [evolveLoop, Except.ok.injEq] at h
    rw [← h]
    exact h1
  | succ g ih =>
    intro st st' h h1 h2 h3
    rw [evolveLoop] at h
    rcases hmax : maxList (st.population.map fit) with e | genBest
    · rw [hmax] at h
      simp at h
    · simp only [hmax] at h
      have hpne : st.population.map fit ≠ [] := by
        intro hnil
        rw [hnil] at hmax
        simp [maxList] at hmax
      obtain ⟨v, hv, hvmem, hvle⟩ := maxList_ok hpne
      have hveq : v = genBest := by
        have := hv.symm.trans hmax
        simpa using this
      rw [hveq] at hvmem hvle
      have hpopne : st.population ≠ [] := by
        intro hnil
        rw [hnil] at hpne
        simp at hpne
      have hchain' : List.Chain' (· ≤ ·) (st.histBest ++ [genBest]) := by
        refine List.Chain'.append h1 (List.chain'_singleton _) ?_
        intro x hx y hy
        simp only [List.head?_cons, Option.mem_def, Option.some.injEq] at hy
        subst hy
        cases hp : st.population with
        | nil => exact absurd hp hpopne
        | cons q qs =>
          have hq : x ≤ fit q := h2 x hx q (by rw [hp]; rfl)
          have hq2 : fit q ≤ genBest := by
            refine hvle _ (List.mem_map.mpr ⟨q, ?_, rfl⟩)
            rw [hp]
            exact List.mem_cons_self q qs
          exact le_trans hq hq2
      by_cases hupd : st.bestFit < genBest
      · simp only [if_pos hupd] at h
        by_cases hbrk : ga.convergenceGenerations ≤ 0
        · rw [if_pos hbrk] at h
          simp only [Except.ok.injEq] at h
          rw [← h]
          exact hchain'
        · rw [if_neg hbrk] at h
          rcases hbp : buildPop ga o st.population (st.population.map fit)
              (ga.populationSize + 1)
              [st.population.getD (indexOfFirst genBest (st.population.map fit)) []]
              st.pos with e | r
          · rw [hbp] at h
            simp at h
          · rw [hbp] at h
            obtain ⟨hemem, hefit⟩ := indexOfFirst_map_getD fit st.population hvmem
            refine ih _ _ h hchain' ?_ ?_
            · intro x hx hd hhd
              rw [List.getLast?_concat] at hx
              simp only [Option.mem_def, Option.some.injEq] at hx
              subst hx
              have hrh := buildPop_ok_head hbp (by simp)
              rw [List.head?_take] at hhd
              by_cases hP : ga.populationSize = 0
              · rw [if_pos hP] at hhd
                simp at hhd
              · rw [if_neg hP, hrh] at hhd
                simp only [List.head?_cons, Option.mem_def, Option.some.injEq] at hhd
                rw [← hhd, hefit]
            · intro b hb
              simp only [Option.mem_def, Option.some.injEq] at hb
              rw [← hb, hefit]
      · simp only [if_neg hupd] at h
        by_cases hbrk : ga.convergenceGenerations ≤ st.stagnation + 1
        · rw [if_pos hbrk] at h
          simp only [Except.ok.injEq] at h
          rw [← h]
          exact hchain'
        · rw [if_neg hbrk] at h
          rcases hbc : st.bestChrom with _ | b
          · simp only [hbc] at h
            exact absurd h (by simp)
          · simp only [hbc] at h
            rcases hbp : buildPop ga o st.population (st.population.map fit)
                (ga.populationSize + 1) [b] st.pos with e | r
            · rw [hbp] at h
              simp at h
            · rw [hbp] at h
              have hfb : fit b = st.bestFit := h3 b (by rw [hbc]; rfl)
              refine ih _ _ h hchain' ?_ ?_
              · intro x hx hd hhd
                rw [List.getLast?_concat] at hx
                simp only [Option.mem_def, Option.some.injEq] at hx
                subst hx
                have hrh := buildPop_ok_head hbp (by simp)
                rw [List.head?_take] at hhd
                by_cases hP : ga.populationSize = 0
                · rw [if_pos hP] at hhd
                  simp at hhd
                · rw [if_neg hP, hrh] at hhd
                  simp only [List.head?_cons, Option.mem_def, Option.some.injEq] at hhd
                  rw [← hhd, hfb]
                  exact not_lt.mp hupd
              · intro b' hb'
                simp only [Option.mem_def, Option.some.injEq] at hb'
                rw [← hb']
                exact hfb

lemma evolve_chain {F : Type} [LinearOrderedField F] [DecidableEq F]
    {ga : GeneticAlgorithm} {fit : List ℕ → F} {o : Oracle} {res : GAResult F}
    (h : ga.evolve fit o = .ok res) : List.Chain' (· ≤ ·) res.historyBest := by
  simp only [GeneticAlgorithm.evolve] at h
  rcases hloop : evolveLoop ga fit o ga.maxGenerations
      ⟨(initPop ga o ga.populationSize 0).1, none, 0, 0, [], [],
        (initPop ga o ga.populationSize 0).2⟩ with e | st'
  · rw [hloop] at h
    simp [Except.map] at h
  · rw [hloop] at h
    simp only [Except.map, Except.ok.injEq] at h
    have hch := evolveLoop_chain ga fit o _ _ _ hloop (by simp) (by simp) (by simp)
    rw [← h]
    exact hch

/-! ## Shape invariant: length `W`, genes in `[0, R]` -/

lemma createChromosome_shape (ga : GeneticAlgorithm) (o : Oracle) (p : ℕ) :
    chromOK ga.nWritten ga.nReference (ga.createChromosome o p).1 := by
  unfold GeneticAlgorithm.createChromosome
  by_cases heq : ga.nWritten = ga.nReference
  · rw [if_pos heq]
    constructor
    · rw [shuffle_length, List.length_range', heq]
    · intro g hg
      have := mem_of_mem_shuffle hg
      rw [List.mem_range'] at this
      obtain ⟨i, hi, rfl⟩ := this
      omega
  · rw [if_neg heq]
    by_cases hlt : ga.nReference < ga.nWritten
    · rw [if_pos hlt]
      constructor
      · rw [shuffle_length, List.length_append, List.length_range',
          List.length_replicate]
        omega
      · intro g hg
        have := mem_of_mem_shuffle hg
        rcases List.mem_append.mp this with h | h
        · rw [List.mem_range'] at h
          obtain ⟨i, hi, rfl⟩ := h
          omega
        · rw [List.mem_replicate] at h
          omega
    · rw [if_neg hlt]
      have hWR : ga.nWritten < ga.nReference := by omega
      constructor
      · exact iidNats_length o _ _ _ _
      · intro g hg
        have := iidNats_mem hg (by omega)
        omega

lemma mutateAux_shape {o : Oracle} {rate : ℚ} {R : ℕ} :
    ∀ {c : List ℕ} {p : ℕ},
      (mutateAux o rate (R + 1) c p).1.length = c.length ∧
      ∀ g ∈ (mutateAux o rate (R + 1) c p).1,
        g ≤ R ∨ g ∈ c := by
  intro c
  induction c with
  | nil => intro p; exact ⟨rfl, by simp [mutateAux]⟩
  | cons a t ih =>
    intro p
    simp only [mutateAux, List.length_cons]
    constructor
    · simp [ih.1]
    · intro g hg
      rcases List.mem_cons.mp hg with rfl | hg
      · by_cases hr : (randRat o p).1 < rate
        · rw [if_pos hr]
          left
          simp only [randNat]
          have : o.nats (randRat o p).2 % (R + 1 - 0) < R + 1 - 0 :=
            Nat.mod_lt _ (by omega)
          omega
        · rw [if_neg hr]
          right
          exact List.mem_cons_self a t
      · rcases ih.2 g hg with h | h
        · exact Or.inl h
        · exact Or.inr (List.mem_cons.mpr (Or.inr h))

lemma mutate_shape (ga : GeneticAlgorithm) (o : Oracle) {c : List ℕ} (p : ℕ)
    (h : chromOK ga.nWritten ga.nReference c) :
    chromOK ga.nWritten ga.nReference (ga.mutate o c p).1 := by
  unfold GeneticAlgorithm.mutate
  constructor
  · rw [mutateAux_shape.1, h.1]
  · intro g hg
    rcases mutateAux_shape.2 g hg with h' | h'
    · exact h'
    · exact h.2 g h'

lemma crossover_shape (ga : GeneticAlgorithm) (o : Oracle) {a b : List ℕ} (p : ℕ)
    (ha : chromOK ga.nWritten ga.nReference a)
    (hb : chromOK ga.nWritten ga.nReference b) :
    chromOK ga.nWritten ga.nReference (ga.crossover o a b p).1.1 ∧
    chromOK ga.nWritten ga.nReference (ga.crossover o a b p).1.2 := by
  unfold GeneticAlgorithm.crossover
  by_cases h2 : a.length < 2
  · rw [if_pos h2]
    exact ⟨ha, hb⟩
  · rw [if_neg h2]
    by_cases hr : (randRat o p).1 < ga.crossoverRate
    · rw [if_pos hr]
      have hcp : (randNat o 1 a.length (randRat o p).2).1 ≤ a.length - 1 := by
        simp only [randNat]
        have : o.nats (randRat o p).2 % (a.length - 1) < a.length - 1 :=
          Nat.mod_lt _ (by omega)
        omega
      have halen : a.length = ga.nWritten := ha.1
      have hblen : b.length = ga.nWritten := hb.1
      constructor
      · constructor
        · rw [List.length_append, List.length_take, List.length_drop]
          omega
        · intro g hg
          rcases List.mem_append.mp hg with h | h
          · exact ha.2 g (List.take_subset _ _ h)
          · exact hb.2 g (List.drop_subset _ _ h)
      · constructor
        · rw [List.length_append, List.length_take, List.length_drop]
          omega
        · intro g hg
          rcases List.mem_append.mp hg with h | h
          · exact hb.2 g (List.take_subset _ _ h)
          · exact ha.2 g (List.drop_subset _ _ h)
    · rw [if_neg hr]
      exact ⟨ha, hb⟩

lemma initPop_mem_shape (ga : GeneticAlgorithm) (o : Oracle) :
    ∀ n p, ∀ d ∈ (initPop ga o n p).1, chromOK ga.nWritten ga.nReference d := by
  intro n
  induction n with
  | zero => intro p d hd; simp [initPop] at hd
  | succ k ih =>
    intro p d hd
    simp only [initPop, List.mem_cons] at hd
    rcases hd with rfl | hd
    · exact createChromosome_shape ga o p
    · exact ih _ d hd

lemma evolveLoop_shape {F : Type} [LinearOrderedField F] [DecidableEq F]
    (ga : GeneticAlgorithm) (fit : List ℕ → F) (o : Oracle) :
    ∀ g st st', evolveLoop ga fit o g st = .ok st' →
      (∀ d ∈ st.population, chromOK ga.nWritten ga.nReference d) →
      (∀ b ∈ st.bestChrom, chromOK ga.nWritten ga.nReference b) →
      ∀ b ∈ st'.bestChrom, chromOK ga.nWritten ga.nReference b := by
  intro g
  induction g with
  | zero =>
    intro st st' h hpop hbest
    simp only [evolveLoop, Except.ok.injEq] at h
    rw [← h]
    exact hbest
  | succ g ih =>
    intro st st' h hpop hbest
    rw [evolveLoop] at h
    rcases hmax : maxList (st.population.map fit) with e | genBest
    · rw [hmax] at h
      simp at h
    · simp only [hmax] at h
      have hpne : st.population.map fit ≠ [] := by
        intro hnil
        rw [hnil] at hmax
        simp [maxList] at hmax
      obtain ⟨v, hv, hvmem, hvle⟩ := maxList_ok hpne
      have hveq : v = genBest := by
        have := hv.symm.trans hmax
        simpa using this
      rw [hveq] at hvmem hvle
      obtain ⟨hemem, hefit⟩ := indexOfFirst_map_getD fit st.population hvmem
      have helite : chromOK ga.nWritten ga.nReference
          (st.population.getD (indexOfFirst genBest (st.population.map fit)) []) :=
        hpop _ hemem
      by_cases hupd : st.bestFit < genBest
      · simp only [if_pos hupd] at h
        by_cases hbrk : ga.convergenceGenerations ≤ 0
        · rw [if_pos hbrk] at h
          simp only [Except.ok.injEq] at h
          rw [← h]
          intro b hb
          simp only [Option.mem_def, Option.some.injEq] at hb
          rw [← hb]
          exact helite
        · rw [if_neg hbrk] at h
          rcases hbp : buildPop ga o st.population (st.population.map fit)
              (ga.populationSize + 1)
              [st.population.getD (indexOfFirst genBest (st.population.map fit)) []]
              st.pos with e | r
          · rw [hbp] at h
            simp at h
          · rw [hbp] at h
            refine ih _ _ h ?_ ?_
            · intro d hd
              refine buildPop_ok_all _ hpop
                (fun a b p ha hb => crossover_shape ga o p ha hb)
                (fun d p hd => mutate_shape ga o p hd) hbp ?_ d
                (List.take_subset _ _ hd)
              intro d' hd'
              rcases List.mem_cons.mp hd' with rfl | hd'
              · exact helite
              · simp at hd'
            · intro b hb
              simp only [Option.mem_def, Option.some.injEq] at hb
              rw [← hb]
              exact helite
      · simp only [if_neg hupd] at h
        by_cases hbrk : ga.convergenceGenerations ≤ st.stagnation + 1
        · rw [if_pos hbrk] at h
          simp only [Except.ok.injEq] at h
          rw [← h]
          exact hbest
        · rw [if_neg hbrk] at h
          rcases hbc : st.bestChrom with _ | b
          · simp only [hbc] at h
            exact absurd h (by simp)
          · simp only [hbc] at h
            have hbQ : chromOK ga.nWritten ga.nReference b :=
              hbest b (by rw [hbc]; rfl)
            rcases hbp : buildPop ga o st.population (st.population.map fit)
                (ga.populationSize + 1) [b] st.pos with e | r
            · rw [hbp] at h
              simp at h
            · rw [hbp] at h
              refine ih _ _ h ?_ ?_
              · intro d hd
                refine buildPop_ok_all _ hpop
                  (fun a b p ha hb => crossover_shape ga o p ha hb)
                  (fun d p hd => mutate_shape ga o p hd) hbp ?_ d
                  (List.take_subset _ _ hd)
                intro d' hd'
                rcases List.mem_cons.mp hd' with rfl | hd'
                · exact hbQ
                · simp at hd'
              · intro b' hb'
                simp only [Option.mem_def, Option.some.injEq] at hb'
                rw [← hb']
                exact hbQ

lemma evolve_shape {F : Type} [LinearOrderedField F] [DecidableEq F]
    {ga : GeneticAlgorithm} {fit : List ℕ → F} {o : Oracle} {res : GAResult F}
    (h : ga.evolve fit o = .ok res) :
    ∀ m ∈ res.mapping, m.length = ga.nWritten ∧ ∀ g ∈ m, g ≤ ga.nReference := by
  simp only [GeneticAlgorithm.evolve] at h
  rcases hloop : evolveLoop ga fit o ga.maxGenerations
      ⟨(initPop ga o ga.populationSize 0).1, none, 0, 0, [], [],
        (initPop ga o ga.populationSize 0).2⟩ with e | st'
  · rw [hloop] at h
    simp [Except.map] at h
  · rw [hloop] at h
    simp only [Except.map, Except.ok.injEq] at h
    have hsh := evolveLoop_shape ga fit o _ _ _ hloop
      (initPop_mem_shape ga o _ _) (by simp)
    intro m hm
    rw [← h] at hm
    exact hsh m hm

/-! ## Geometry basics -/

lemma norm2_nonneg (v : ℝ × ℝ) : 0 ≤ norm2 v := Real.sqrt_nonneg _

lemma norm2_zero : norm2 (0, 0) = 0 := by
  unfold norm2
  norm_num

lemma extract_angle_bound (s : Stroke) : |(extract s).angle| ≤ Real.pi := by
  unfold extract
  by_cases h : (1e-6 : ℝ) < norm2
      ((((s.getD 0 []).getLast?.getD 0) - (s.getD 0 []).getD 0 0),
       (((s.getD 1 []).getLast?.getD 0) - (s.getD 1 []).getD 0 0))
  · simp only [if_pos h]
    rw [abs_le]
    exact ⟨le_of_lt (Complex.neg_pi_lt_arg _), Complex.arg_le_pi _⟩
  · simp only [if_neg h]
    rw [abs_zero]
    exact le_of_lt Real.pi_pos

lemma angleOK_default : angleOK (default : StrokeFeatures) := by
  unfold angleOK
  simp only [default]
  rw [abs_zero]
  exact le_of_lt Real.pi_pos

lemma angleOK_extract (s : Stroke) : angleOK (extract s) := extract_angle_bound s

lemma angleOK_getD {fs : List StrokeFeatures} (h : ∀ f ∈ fs, angleOK f) (i : ℕ) :
    angleOK (fs.getD i default) := by
  by_cases hi : i < fs.length
  · rw [List.getD_eq_getElem _ _ hi]
    exact h _ (List.getElem_mem _)
  · rw [List.getD_eq_default _ _ (by omega)]
    exact angleOK_default

lemma pairCost_nonneg (fp : FitnessParams) (wTL rTL : ℝ × ℝ)
    {w r : StrokeFeatures}
    (h0 : 0 ≤ fp.alpha ∧ 0 ≤ fp.beta ∧ 0 ≤ fp.gamma ∧ 0 ≤ fp.epsilon)
    (hw : angleOK w) (hr : angleOK r) :
    0 ≤ pairCost fp wTL rTL w r := by
  simp only [pairCost]
  have hda : (0 : ℝ) ≤
      if Real.pi < |w.angle - r.angle| then 2 * Real.pi - |w.angle - r.angle|
      else |w.angle - r.angle| := by
    by_cases hgt : Real.pi < |w.angle - r.angle|
    · rw [if_pos hgt]
      have hb : |w.angle - r.angle| ≤ |w.angle| + |r.angle| := abs_sub _ _
      unfold angleOK at hw hr
      nlinarith
    · rw [if_neg hgt]
      exact abs_nonneg _
  have h1 : 0 ≤ fp.alpha * norm2 (w.center.1 - r.center.1, w.center.2 - r.center.2) :=
    mul_nonneg h0.1 (norm2_nonneg _)
  have h2 : 0 ≤ fp.beta * |w.length - r.length| :=
    mul_nonneg h0.2.1 (abs_nonneg _)
  have h3 : 0 ≤ fp.gamma *
      (if Real.pi < |w.angle - r.angle| then 2 * Real.pi - |w.angle - r.angle|
       else |w.angle - r.angle|) := mul_nonneg h0.2.2.1 hda
  have h4 : 0 ≤ fp.epsilon *
      |norm2 (w.center.1 - wTL.1, w.center.2 - wTL.2) -
       norm2 (r.center.1 - rTL.1, r.center.2 - rTL.2)| :=
    mul_nonneg h0.2.2.2 (abs_nonneg _)
  linarith

lemma computeDistance_nonneg (fp : FitnessParams)
    {wf rf : List StrokeFeatures} (mapping : List ℕ)
    (h0 : 0 ≤ fp.alpha ∧ 0 ≤ fp.beta ∧ 0 ≤ fp.gamma ∧ 0 ≤ fp.epsilon)
    (hw : ∀ f ∈ wf, angleOK f) (hr : ∀ f ∈ rf, angleOK f) :
    0 ≤ computeDistance fp wf rf mapping := by
  unfold computeDistance
  refine List.sum_nonneg ?_
  intro x hx
  obtain ⟨ir, _, rfl⟩ := List.mem_map.mp hx
  by_cases hc : ir.2 = 0 ∨ rf.length < ir.2
  · rw [if_pos hc]
    norm_num
  · rw [if_neg hc]
    exact pairCost_nonneg fp _ _ h0 (angleOK_getD hw _) (angleOK_getD hr _)

lemma computeFitness_pos {d : ℝ} (h : 0 ≤ d) : 0 < computeFitness d := by
  unfold computeFitness
  positivity

/-- The distance of the all-unmatched chromosome `[0]` is exactly the
penalty `1000`, whatever the features are. -/
lemma computeDistance_zero_gene (fp : FitnessParams)
    (wf rf : List StrokeFeatures) :
    computeDistance fp wf rf [0] = 1000 := by
  unfold computeDistance
  simp [List.enum]

/-- Matching a feature against itself costs nothing: every term of the
pair cost vanishes. -/
lemma pairCost_self (fp : FitnessParams) (tl : ℝ × ℝ) (f : StrokeFeatures) :
    pairCost fp tl tl f f = 0 := by
  have hpi : ¬ (Real.pi < 0) := not_lt.mpr (le_of_lt Real.pi_pos)
  simp only [pairCost, sub_self, abs_zero, norm2_zero]
  rw [if_neg hpi]
  ring

/-- The identity chromosome `[1]` on two identical singleton feature
lists has distance `0`. -/
lemma computeDistance_identity_one (fp : FitnessParams) (f : StrokeFeatures) :
    computeDistance fp [f] [f] [1] = 0 := by
  have h : computeDistance fp [f] [f] [1] =
      [pairCost fp (bboxTL [f]) (bboxTL [f]) f f].sum := rfl
  rw [h, pairCost_self]
  simp

lemma evaluateChromosome_zero_gene (fp : FitnessParams)
    (wf rf : List StrokeFeatures) :
    evaluateChromosome fp wf rf [0] = 1 / 1001 := by
  unfold evaluateChromosome computeFitness
  rw [computeDistance_zero_gene]
  norm_num

lemma evaluateChromosome_identity_one (fp : FitnessParams) (f : StrokeFeatures) :
    evaluateChromosome fp [f] [f] [1] = 1 := by
  unfold evaluateChromosome computeFitness
  rw [computeDistance_identity_one]
  norm_num

/-! ## Concrete run instances -/

/-- One written stroke against one identical reference stroke: for every
oracle, every chromosome the GA can see is `[0]` or `[1]`, the identity
`[1]` scores fitness `1`, and the run returns `[1]` after 11 generations. -/
lemma evolve_identity_one (fp : FitnessParams) (f : StrokeFeatures) (o : Oracle) :
    ∃ res, (mkGA 1 1 none 100 (4 / 5) (1 / 10) 3 10).evolve
        (evaluateChromosome fp [f] [f]) o = .ok res ∧
      res.mapping = some [1] ∧ res.fitness = 1 ∧ res.generations = 11 ∧
      res.historyBest = List.replicate 11 1 := by
  set ga := mkGA 1 1 none 100 (4 / 5) (1 / 10) 3 10 with hga
  have hW : ga.nWritten = 1 := rfl
  have hR : ga.nReference = 1 := rfl
  obtain ⟨res, hres, hmap, hfit, hgen, hhist⟩ :=
    evolve_stable ga (evaluateChromosome fp [f] [f]) o
      (fun d => ∃ g, g ≤ 1 ∧ d = [g]) [1]
      rfl rfl (by decide) (by decide)
      (fun p => rfl)
      ⟨1, le_refl 1, rfl⟩
      (by
        intro a b p ha hb
        obtain ⟨g1, _, rfl⟩ := ha
        obtain ⟨g2, hg2, rfl⟩ := hb
        have hlen : ([g1] : List ℕ).length < 2 := by simp
        unfold GeneticAlgorithm.crossover
        rw [if_pos hlen]
        exact ⟨⟨g1, by assumption, rfl⟩, ⟨g2, hg2, rfl⟩⟩)
      (by
        intro d p hd
        obtain ⟨g, hg, rfl⟩ := hd
        simp only [GeneticAlgorithm.mutate, mutateAux]
        by_cases hr : (randRat o p).1 < ga.mutationRate
        · rw [if_pos hr]
          refine ⟨(randNat o 0 (ga.nReference + 1) (randRat o p).2).1, ?_, rfl⟩
          simp only [randNat, hR]
          have : o.nats (randRat o p).2 % 2 < 2 := Nat.mod_lt _ (by omega)
          omega
        · rw [if_neg hr]
          exact ⟨g, hg, rfl⟩)
      (by
        intro d hd
        obtain ⟨g, hg, rfl⟩ := hd
        interval_cases g
        · rw [evaluateChromosome_zero_gene, evaluateChromosome_identity_one]
          norm_num
        · rw [evaluateChromosome_identity_one])
      (by
        rw [evaluateChromosome_identity_one]
        norm_num)
  rw [evaluateChromosome_identity_one] at hfit hhist
  exact ⟨res, hres, hmap, hfit, hgen, hhist⟩

/-- A single written stroke against an empty reference: the only
chromosome ever seen is `[0]` (mutation draws from `randint(0, 1)`), for
every oracle and every crossover/mutation rate.  The GA happily runs for
11 generations and returns `[0]`. -/
lemma evolve_zero_reference (fp : FitnessParams) (wf : List StrokeFeatures)
    (o : Oracle) (cr mr : ℚ) (ps : Option ℕ) (hps : ps = none ∨ ps = some 8) :
    ∃ res, (mkGA 1 0 ps 100 cr mr 3 10).evolve
        (evaluateChromosome fp wf []) o = .ok res ∧
      res.mapping = some [0] ∧ res.fitness = 1 / 1001 ∧ res.generations = 11 ∧
      res.historyBest = List.replicate 11 (1 / 1001) := by
  set ga := mkGA 1 0 ps 100 cr mr 3 10 with hga
  have hpop : ga.populationSize = 8 := by
    rcases hps with rfl | rfl
    · rfl
    · rfl
  obtain ⟨res, hres, hmap, hfit, hgen, hhist⟩ :=
    evolve_stable ga (evaluateChromosome fp wf []) o (fun d => d = [0]) [0]
      rfl rfl
      (by rw [show ga.tournamentSize = 3 from rfl]; norm_num)
      (by rw [hpop, show ga.tournamentSize = 3 from rfl]; norm_num)
      (fun p => rfl)
      rfl
      (by
        intro a b p ha hb
        subst ha
        subst hb
        have hlen : ([0] : List ℕ).length < 2 := by simp
        unfold GeneticAlgorithm.crossover
        rw [if_pos hlen]
        exact ⟨rfl, rfl⟩)
      (by
        intro d p hd
        subst hd
        simp only [GeneticAlgorithm.mutate, mutateAux]
        by_cases hr : (randRat o p).1 < ga.mutationRate
        · rw [if_pos hr]
          simp [randNat, show ga.nReference = 0 from rfl, Nat.mod_one]
        · rw [if_neg hr])
      (fun d hd => by rw [hd])
      (by
        rw [evaluateChromosome_zero_gene]
        norm_num)
  rw [evaluateChromosome_zero_gene] at hfit hhist
  exact ⟨res, hres, hmap, hfit, hgen, hhist⟩

/-- With no written strokes and the default (falsy) population size, the
population is empty and the very first `max(fitnesses)` raises. -/
lemma evolve_zero_written {F : Type} [LinearOrderedField F] [DecidableEq F]
    (fit : List ℕ → F) (o : Oracle) (R : ℕ) (cr mr : ℚ) (ts cg : ℕ) :
    (mkGA 0 R none 100 cr mr ts cg).evolve fit o = .error .maxEmpty := by
  have hpop : (mkGA 0 R none 100 cr mr ts cg).populationSize = 0 := rfl
  simp only [GeneticAlgorithm.evolve, hpop]
  rw [show (mkGA 0 R none 100 cr mr ts cg).maxGenerations = 99 + 1 from rfl]
  rw [evolveLoop]
  rfl

/-! ## Pipeline plumbing -/

/-- Unfolding of `StrokeMatcher.match` when normalization is on. -/
lemma matchStrokes_norm (cfg : MatcherCfg) (hflag : cfg.normFlag = true)
    (written reference : List Stroke) (o : Oracle) :
    matchStrokes cfg written reference o =
      (normalize 100 written).bind fun wn =>
      (normalize 100 reference).bind fun rn =>
      ((mkGA written.length reference.length cfg.populationSize cfg.maxGenerations
          (4 / 5) (1 / 10) 3 10).evolve
        (evaluateChromosome ⟨cfg.alpha, cfg.beta, cfg.gamma, cfg.epsilon⟩
          (wn.1.map extract) (rn.1.map extract)) o).bind fun gaRes =>
      match gaRes.mapping with
      | none => .error .noneIterate
      | some m => .ok ⟨some m, gaRes.fitness,
          detectErrors m (wn.1.map extract) (rn.1.map extract) cfg.angleThreshold,
          gaRes.generations, gaRes.historyBest, gaRes.historyAvg,
          wn.1.map extract, rn.1.map extract, wn.2, rn.2⟩ := by
  simp only [matchStrokes, hflag]
  rfl

/-- A stroke with fewer than two rows makes the normalizer raise. -/
lemma normalize_invalid (target : ℝ) {strokes : List Stroke}
    (h : ∃ s ∈ strokes, s.length < 2) :
    normalize target strokes = .error .invalidStroke := by
  obtain ⟨s0, hs0, hslen⟩ := h
  cases strokes with
  | nil => simp at hs0
  | cons a rest =>
    simp only [normalize]
    rw [if_pos]
    exact List.any_eq_true.mpr ⟨s0, hs0, by simpa using hslen⟩

/-- On valid input (nonempty, all strokes with at least two rows, at least
one coordinate sample in each of the two rows) the normalizer succeeds and
returns one rescaled stroke per input stroke, plus metadata. -/
lemma normalize_ok_of_valid (target : ℝ) {strokes : List Stroke}
    (hne : strokes ≠ [])
    (hrows : ∀ s ∈ strokes, 2 ≤ s.length)
    (hx : strokes.flatMap (fun s => s.getD 0 []) ≠ [])
    (hy : strokes.flatMap (fun s => s.getD 1 []) ≠ []) :
    ∃ pr, normalize target strokes = .ok pr ∧ pr.1.length = strokes.length ∧
      pr.2.isSome = true := by
  cases strokes with
  | nil => exact absurd rfl hne
  | cons a rest =>
    simp only [normalize]
    rw [if_neg, if_neg, if_neg]
    · exact ⟨_, rfl, by simp, rfl⟩
    · simpa using hy
    · simpa using hx
    · simp only [List.any_eq_true, not_exists]
      intro s
      simp only [decide_eq_true_eq, not_and]
      intro hs
      have := hrows s hs
      omega

/-- The orientation pass emits nothing for a stroke matched to an
identical feature (angle difference `0`). -/
lemma checkOrient_identity_one (f : StrokeFeatures) {th : ℝ} (hth : 0 ≤ th) :
    checkOrient [1] [f] [f] th = [] := by
  have hd0 : |f.angle - f.angle| = (0 : ℝ) := by rw [sub_self, abs_zero]
  have hpi : ¬ (Real.pi < (0 : ℝ)) := not_lt.mpr (le_of_lt Real.pi_pos)
  have hth' : ¬ (th < (0 : ℝ)) := not_lt.mpr hth
  unfold checkOrient
  rw [show ([1] : List ℕ).enum = [(0, 1)] from rfl]
  rw [List.filterMap_cons, List.filterMap_nil]
  rw [if_neg (by simp)]
  simp only [show (1 : ℕ) - 1 = 0 from rfl, List.getD_cons_zero, hd0]
  rw [if_neg hpi, if_neg hth']

/-- The classifier finds nothing wrong with the identity match of a
single stroke. -/
lemma detectErrors_identity_one (f : StrokeFeatures) {th : ℝ} (hth : 0 ≤ th) :
    detectErrors [1] [f] [f] th = [] := by
  unfold detectErrors
  rw [checkOrient_identity_one f hth]
  rw [show checkConcatRedundant [1] = [] from rfl]
  rw [show checkBrokenExtra [1] = [] from rfl]
  rw [show checkMissing [1] ([f] : List StrokeFeatures).length = [] from rfl]
  rw [show checkOrder [1] = [] from rfl]
  rfl

/-- Identity match, `W = R = 1`: for every oracle and every valid stroke,
`match` returns the identity assignment `[1]`, fitness `1`, an empty error
list, and 11 generations. -/
lemma matchStrokes_identity_one (s : Stroke) (o : Oracle)
    (hrows : 2 ≤ s.length) (hx : s.getD 0 [] ≠ []) (hy : s.getD 1 [] ≠ []) :
    ∃ res, matchStrokes defaultCfg [s] [s] o = .ok res ∧
      res.mapping = some [1] ∧ res.errors = [] ∧ res.fitness = 1 ∧
      res.generations = 11 ∧ res.historyBest = List.replicate 11 1 := by
  obtain ⟨pr, hpr, hlen, _⟩ := @normalize_ok_of_valid 100 [s]
    (by simp)
    (by intro st hst; rw [List.mem_singleton.mp hst]; exact hrows)
    (by simpa using hx)
    (by simpa using hy)
  obtain ⟨t, ht⟩ := List.length_eq_one.mp (by simpa using hlen)
  obtain ⟨res, hres, hmap, hfit, hgen, hhist⟩ :=
    evolve_identity_one ⟨1, 1, 1, 1⟩ (extract t) o
  rw [matchStrokes_norm defaultCfg rfl [s] [s] o]
  rw [hpr]
  rw [except_bind_ok]
  rw [except_bind_ok]
  rw [ht, List.map_cons, List.map_nil]
  have hga : mkGA (List.length [s]) (List.length [s]) defaultCfg.populationSize
      defaultCfg.maxGenerations (4 / 5) (1 / 10) 3 10 =
      mkGA 1 1 none 100 (4 / 5) (1 / 10) 3 10 := rfl
  have hfp : (⟨defaultCfg.alpha, defaultCfg.beta, defaultCfg.gamma,
      defaultCfg.epsilon⟩ : FitnessParams) = ⟨1, 1, 1, 1⟩ := rfl
  rw [hga, hfp, hres, except_bind_ok, hmap]
  refine ⟨_, rfl, rfl, ?_, hfit, hgen, hhist⟩
  rw [show defaultCfg.angleThreshold = Real.pi / 4 from rfl]
  exact detectErrors_identity_one (extract t) (by positivity)

lemma bind_eq_ok {ε α β : Type} {e : Except ε α} {f : α → Except ε β} {b : β}
    (h : e.bind f = .ok b) : ∃ a, e = .ok a ∧ f a = .ok b := by
  cases e with
  | error err => exact absurd h (by simp [Except.bind])
  | ok a => exact ⟨a, rfl, h⟩

/-- Unfolding of `StrokeMatcher.match` when normalization is off. -/
lemma matchStrokes_nonorm (cfg : MatcherCfg) (hflag : cfg.normFlag = false)
    (written reference : List Stroke) (o : Oracle) :
    matchStrokes cfg written reference o =
      ((mkGA written.length reference.length cfg.populationSize cfg.maxGenerations
          (4 / 5) (1 / 10) 3 10).evolve
        (evaluateChromosome ⟨cfg.alpha, cfg.beta, cfg.gamma, cfg.epsilon⟩
          (written.map extract) (reference.map extract)) o).bind fun gaRes =>
      match gaRes.mapping with
      | none => .error .noneIterate
      | some m => .ok ⟨some m, gaRes.fitness,
          detectErrors m (written.map extract) (reference.map extract)
            cfg.angleThreshold,
          gaRes.generations, gaRes.historyBest, gaRes.historyAvg,
          written.map extract, reference.map extract, none, none⟩ := by
  simp only [matchStrokes, hflag]
  rfl

/-- Inverting a successful `match`: some GA run over the (possibly
normalized) features returned the mapping the result carries. -/
lemma matchStrokes_ok_inv {cfg : MatcherCfg} {w r : List Stroke} {o : Oracle}
    {res : MatchResult} (h : matchStrokes cfg w r o = .ok res) :
    ∃ (wn rn : List Stroke) (gaRes : GAResult ℝ) (m : List ℕ),
      (mkGA w.length r.length cfg.populationSize cfg.maxGenerations
          (4 / 5) (1 / 10) 3 10).evolve
        (evaluateChromosome ⟨cfg.alpha, cfg.beta, cfg.gamma, cfg.epsilon⟩
          (wn.map extract) (rn.map extract)) o = .ok gaRes ∧
      gaRes.mapping = some m ∧ res.mapping = some m := by
  by_cases hflag : cfg.normFlag = true
  · rw [matchStrokes_norm cfg hflag] at h
    obtain ⟨wn, hwn, h⟩ := bind_eq_ok h
    obtain ⟨rn, hrn, h⟩ := bind_eq_ok h
    obtain ⟨gaRes, hga, h⟩ := bind_eq_ok h
    rcases hm : gaRes.mapping with _ | m
    · rw [hm] at h
      simp at h
    · rw [hm] at h
      simp only [Except.ok.injEq] at h
      refine ⟨wn.1, rn.1, gaRes, m, hga, hm, ?_⟩
      rw [← h]
  · rw [matchStrokes_nonorm cfg (by simpa using hflag)] at h
    obtain ⟨gaRes, hga, h⟩ := bind_eq_ok h
    rcases hm : gaRes.mapping with _ | m
    · rw [hm] at h
      simp at h
    · rw [hm] at h
      simp only [Except.ok.injEq] at h
      refine ⟨w, r, gaRes, m, hga, hm, ?_⟩
      rw [← h]

/-- Under `oracleSwap`, a `W = R = 2` run only ever sees the chromosome
`[2, 1]`: creation shuffles `[1, 2]` into `[2, 1]`, crossover of two
equal parents is the identity, and mutation never fires.  The GA
therefore converges to the non-identity assignment `[2, 1]`. -/
lemma evolve_two_swap (fp : FitnessParams) (wf rf : List StrokeFeatures)
    (h0 : 0 ≤ fp.alpha ∧ 0 ≤ fp.beta ∧ 0 ≤ fp.gamma ∧ 0 ≤ fp.epsilon)
    (hw : ∀ f ∈ wf, angleOK f) (hr : ∀ f ∈ rf, angleOK f) :
    ∃ res, (mkGA 2 2 none 100 (4 / 5) (1 / 10) 3 10).evolve
        (evaluateChromosome fp wf rf) oracleSwap = .ok res ∧
      res.mapping = some [2, 1] := by
  set ga := mkGA 2 2 none 100 (4 / 5) (1 / 10) 3 10 with hga
  have hrate : ¬ ((1 : ℚ) < 1 / 10) := by norm_num
  obtain ⟨res, hres, hmap, _, _, _⟩ :=
    evolve_stable ga (evaluateChromosome fp wf rf) oracleSwap
      (fun d => d = [2, 1]) [2, 1]
      rfl rfl
      (by rw [show ga.tournamentSize = 3 from rfl]; norm_num)
      (by rw [show ga.tournamentSize = 3 from rfl,
            show ga.populationSize = 16 from rfl]; norm_num)
      (fun p => rfl)
      rfl
      (by
        intro a b p ha hb
        subst ha
        subst hb
        constructor
        · rw [crossover_self]
        · rw [crossover_self])
      (by
        intro d p hd
        subst hd
        simp only [GeneticAlgorithm.mutate, mutateAux]
        rw [show ga.mutationRate = 1 / 10 from rfl]
        rw [if_neg (by exact hrate), if_neg (by exact hrate)])
      (fun d hd => by rw [hd])
      (computeFitness_pos (computeDistance_nonneg fp _ h0 hw hr))
  exact ⟨res, hres, hmap⟩

/-- A concrete two-stroke identity input on which `match` returns the
non-identity assignment `[2, 1]` under `oracleSwap`. -/
lemma matchStrokes_two_swap :
    ∃ res, matchStrokes defaultCfg [sPtA, sPtB] [sPtA, sPtB] oracleSwap = .ok res ∧
      res.mapping = some [2, 1] := by
  obtain ⟨pr, hpr, _, _⟩ := @normalize_ok_of_valid 100 [sPtA, sPtB]
    (by simp)
    (by
      intro st hst
      rcases List.mem_cons.mp hst with rfl | hst
      · rw [show sPtA.length = 2 from rfl]
      · rw [List.mem_singleton.mp hst, show sPtB.length = 2 from rfl])
    (by simp [sPtA, sPtB])
    (by simp [sPtA, sPtB])
  obtain ⟨res, hres, hmap⟩ := evolve_two_swap ⟨1, 1, 1, 1⟩
    (pr.1.map extract) (pr.1.map extract)
    (by norm_num)
    (by
      intro f hf
      obtain ⟨t, _, rfl⟩ := List.mem_map.mp hf
      exact angleOK_extract t)
    (by
      intro f hf
      obtain ⟨t, _, rfl⟩ := List.mem_map.mp hf
      exact angleOK_extract t)
  rw [matchStrokes_norm defaultCfg rfl [sPtA, sPtB] [sPtA, sPtB] oracleSwap]
  rw [hpr]
  rw [except_bind_ok]
  rw [except_bind_ok]
  have hga : mkGA (List.length [sPtA, sPtB]) (List.length [sPtA, sPtB])
      defaultCfg.populationSize defaultCfg.maxGenerations (4 / 5) (1 / 10) 3 10 =
      mkGA 2 2 none 100 (4 / 5) (1 / 10) 3 10 := rfl
  have hfp : (⟨defaultCfg.alpha, defaultCfg.beta, defaultCfg.gamma,
      defaultCfg.epsilon⟩ : FitnessParams) = ⟨1, 1, 1, 1⟩ := rfl
  rw [hga, hfp, hres, except_bind_ok, hmap]
  exact ⟨_, rfl, rfl⟩

/-- `match` with an empty written list and the default configuration
crashes: the GA population is empty and `max(fitnesses)` raises. -/
lemma matchStrokes_zero_written (reference : List Stroke) (o : Oracle)
    (hne : reference ≠ [])
    (hrows : ∀ s ∈ reference, 2 ≤ s.length)
    (hx : reference.flatMap (fun s => s.getD 0 []) ≠ [])
    (hy : reference.flatMap (fun s => s.getD 1 []) ≠ []) :
    matchStrokes defaultCfg [] reference o = .error .maxEmpty := by
  obtain ⟨pr, hpr, _, _⟩ := normalize_ok_of_valid 100 hne hrows hx hy
  rw [matchStrokes_norm defaultCfg rfl [] reference o]
  rw [show normalize 100 ([] : List Stroke) = .ok ([], none) from rfl]
  rw [except_bind_ok, hpr, except_bind_ok]
  rw [show mkGA (List.length ([] : List Stroke)) reference.length
      defaultCfg.populationSize defaultCfg.maxGenerations (4 / 5) (1 / 10) 3 10 =
      mkGA 0 reference.length none 100 (4 / 5) (1 / 10) 3 10 from rfl]
  rw [evolve_zero_written]
  rfl

/-- `match` with an empty reference list succeeds: the GA happily maps
the single written stroke to `0` and the call returns a result. -/
lemma matchStrokes_empty_reference (o : Oracle) :
    ∃ res, matchStrokes defaultCfg [sZero] [] o = .ok res ∧
      res.mapping = some [0] := by
  obtain ⟨pr, hpr, hlen, _⟩ := @normalize_ok_of_valid 100 [sZero]
    (by simp)
    (by intro st hst; rw [List.mem_singleton.mp hst, show sZero.length = 2 from rfl])
    (by simp [sZero])
    (by simp [sZero])
  obtain ⟨res, hres, hmap, _, _, _⟩ := evolve_zero_reference ⟨1, 1, 1, 1⟩
    (pr.1.map extract) o (4 / 5) (1 / 10) none (Or.inl rfl)
  rw [matchStrokes_norm defaultCfg rfl [sZero] [] o]
  rw [hpr, except_bind_ok]
  rw [show normalize 100 ([] : List Stroke) = .ok ([], none) from rfl]
  rw [except_bind_ok]
  have hga : mkGA (List.length [sZero]) (List.length ([] : List Stroke))
      defaultCfg.populationSize defaultCfg.maxGenerations (4 / 5) (1 / 10) 3 10 =
      mkGA 1 0 none 100 (4 / 5) (1 / 10) 3 10 := rfl
  have hfp : (⟨defaultCfg.alpha, defaultCfg.beta, defaultCfg.gamma,
      defaultCfg.epsilon⟩ : FitnessParams) = ⟨1, 1, 1, 1⟩ := rfl
  rw [hga, hfp]
  rw [show (([], none) : List Stroke × Option NormMeta).1.map extract =
      ([] : List StrokeFeatures) from rfl]
  rw [hres, except_bind_ok, hmap]
  exact ⟨_, rfl, rfl⟩

/-! ## Characterizing the broken/extra grouping -/

lemma keysIn_concat (m : List ℕ) (a : ℕ) :
    keysIn (m ++ [a]) = if a ∈ keysIn m then keysIn m else keysIn m ++ [a] := by
  unfold keysIn
  rw [List.foldl_append]
  rfl

lemma mem_keysIn_aux (a : ℕ) :
    ∀ (m : List ℕ) (ks : List ℕ),
      (a ∈ m.foldl (fun ks r => if r ∈ ks then ks else ks ++ [r]) ks ↔
        a ∈ ks ∨ a ∈ m) := by
  intro m
  induction m with
  | nil => intro ks; simp
  | cons b t ih =>
    intro ks
    rw [List.foldl_cons]
    by_cases hb : b ∈ ks
    · rw [if_pos hb, ih]
      constructor
      · rintro (h | h)
        · exact Or.inl h
        · exact Or.inr (List.mem_cons.mpr (Or.inr h))
      · rintro (h | h)
        · exact Or.inl h
        · rcases List.mem_cons.mp h with rfl | h
          · exact Or.inl hb
          · exact Or.inr h
    · rw [if_neg hb, ih]
      simp only [List.mem_append, List.mem_singleton, List.mem_cons]
      tauto

lemma mem_keysIn {a : ℕ} {m : List ℕ} : a ∈ keysIn m ↔ a ∈ m := by
  unfold keysIn
  rw [mem_keysIn_aux]
  simp

lemma keysIn_nodup (m : List ℕ) : (keysIn m).Nodup := by
  suffices h : ∀ ks : List ℕ, ks.Nodup →
      (m.foldl (fun ks r => if r ∈ ks then ks else ks ++ [r]) ks).Nodup by
    exact h [] List.nodup_nil
  induction m with
  | nil => intro ks hks; exact hks
  | cons b t ih =>
    intro ks hks
    rw [List.foldl_cons]
    by_cases hb : b ∈ ks
    · rw [if_pos hb]
      exact ih ks hks
    · rw [if_neg hb]
      refine ih _ ?_
      rw [List.nodup_append]
      exact ⟨hks, List.nodup_singleton b, by simpa using fun h => hb h⟩

lemma insertGroup_of_mem (g : ℕ → List ℕ) (a i : ℕ) :
    ∀ ks : List ℕ, ks.Nodup → a ∈ ks →
      insertGroup (ks.map fun r => (r, g r)) a i =
        ks.map fun r => (r, if r = a then g r ++ [i] else g r) := by
  intro ks
  induction ks with
  | nil => intro _ h; simp at h
  | cons k t ih =>
    intro hnd hmem
    rw [List.map_cons, List.map_cons, insertGroup]
    by_cases hk : k = a
    · rw [if_pos hk, if_pos hk]
      subst hk
      congr 1
      have hknot : k ∉ t := (List.nodup_cons.mp hnd).1
      refine (List.map_congr_left ?_).symm
      intro r hr
      rw [if_neg]
      intro hra
      rw [hra] at hr
      exact hknot hr
    · rw [if_neg hk, if_neg hk]
      rw [ih (List.nodup_cons.mp hnd).2 (by
        rcases List.mem_cons.mp hmem with h | h
        · exact absurd h.symm hk
        · exact h)]

lemma insertGroup_of_not_mem (g : ℕ → List ℕ) (a i : ℕ) :
    ∀ ks : List ℕ, a ∉ ks →
      insertGroup (ks.map fun r => (r, g r)) a i =
        (ks.map fun r => (r, g r)) ++ [(a, [i])] := by
  intro ks
  induction ks with
  | nil => intro _; rfl
  | cons k t ih =>
    intro hmem
    rw [List.map_cons, insertGroup, if_neg (by
      intro hk
      exact hmem (by rw [hk]; exact List.mem_cons_self a t))]
    rw [ih (fun h => hmem (List.mem_cons.mpr (Or.inr h)))]
    rfl

lemma groupOf_concat (m : List ℕ) (a r : ℕ) :
    groupOf (m ++ [a]) r =
      groupOf m r ++ if a = r then [m.length] else [] := by
  unfold groupOf
  rw [List.length_append, List.length_singleton, List.range_succ,
    List.filter_append]
  congr 1
  · refine List.filter_congr ?_
    intro i hi
    rw [List.mem_range] at hi
    have : (m ++ [a]).getD i 0 = m.getD i 0 := by
      rw [List.getD_eq_getElem _ _ (by rw [List.length_append]; omega),
        List.getD_eq_getElem _ _ hi]
      exact List.getElem_append_left hi
    rw [this]
  · have ha : (m ++ [a]).getD m.length 0 = a := by
      rw [List.getD_eq_getElem _ _ (by rw [List.length_append]; simp)]
      simp
    by_cases har : a = r
    · rw [if_pos har]
      simp [ha, har]
    · rw [if_neg har]
      simp [ha, har]

/-- `ref_groups` is the first-occurrence key list paired with the index
groups. -/
lemma refGroups_eq (m : List ℕ) :
    refGroups m = (keysIn m).map fun r => (r, groupOf m r) := by
  induction m using List.reverseRecOn with
  | nil => rfl
  | append_singleton m a ih =>
    have hconcat : refGroups (m ++ [a]) = insertGroup (refGroups m) a m.length := by
      unfold refGroups
      rw [List.enum_append]
      rw [List.foldl_append]
      rfl
    rw [hconcat, ih, keysIn_concat]
    by_cases ha : a ∈ keysIn m
    · rw [if_pos ha]
      rw [insertGroup_of_mem (groupOf m) a m.length (keysIn m) (keysIn_nodup m) ha]
      refine List.map_congr_left ?_
      intro r hr
      rw [groupOf_concat]
      by_cases hra : r = a
      · rw [if_pos hra, if_pos (by rw [hra])]
      · rw [if_neg hra, if_neg (by intro h; exact hra h.symm)]
        simp
    · rw [if_neg ha]
      rw [insertGroup_of_not_mem (groupOf m) a m.length (keysIn m) ha]
      rw [List.map_append]
      congr 1
      · refine List.map_congr_left ?_
        intro r hr
        rw [groupOf_concat, if_neg (by
          intro h
          rw [h] at ha
          exact ha hr)]
        simp
      · rw [List.map_singleton, groupOf_concat, if_pos rfl]
        have : groupOf m a = [] := by
          unfold groupOf
          rw [List.filter_eq_nil_iff]
          intro i hi
          rw [List.mem_range] at hi
          simp only [decide_eq_true_eq]
          intro hia
          refine (mem_keysIn.not.mp ha) ?_
          rw [← hia]
          rw [List.getD_eq_getElem _ _ hi]
          exact List.getElem_mem _
        rw [this]
        rfl

lemma groupOf_mem_self {m : List ℕ} {r : ℕ} (h : groupOf m r ≠ []) : r ∈ m := by
  obtain ⟨i, hi⟩ := List.exists_mem_of_ne_nil _ h
  have hval := List.of_mem_filter hi
  have hir := List.mem_range.mp (List.mem_of_mem_filter hi)
  simp only [decide_eq_true_eq] at hval
  rw [← hval, List.getD_eq_getElem _ _ hir]
  exact List.getElem_mem _

/-- The core of `_check_broken_extra`: a multiply-used positive reference
key emits the surplus as `EXTRA` when `W` exceeds the number of distinct
matched references, and the whole group as `BROKEN` otherwise. -/
lemma checkBrokenExtra_mem (m : List ℕ) (r : ℕ) (hr : 0 < r)
    (hlen : 2 ≤ (groupOf m r).length) :
    (distinctMatched m < m.length →
      ErrorRecord.extra (groupOf m r).tail (some (r - 1)) ∈ checkBrokenExtra m) ∧
    (m.length ≤ distinctMatched m →
      ErrorRecord.broken (groupOf m r) (r - 1) ∈ checkBrokenExtra m) := by
  have hrm : r ∈ m := groupOf_mem_self (by
    intro h
    rw [h] at hlen
    simp at hlen)
  have hpair : (r, groupOf m r) ∈ refGroups m := by
    rw [refGroups_eq]
    exact List.mem_map.mpr ⟨r, mem_keysIn.mpr hrm, rfl⟩
  constructor
  · intro hW
    simp only [checkBrokenExtra]
    refine List.mem_append.mpr (Or.inr ?_)
    refine List.mem_flatMap.mpr ⟨(r, groupOf m r), hpair, ?_⟩
    rw [if_pos ⟨hr, show 1 < (groupOf m r).length by omega⟩, if_pos hW]
    exact List.mem_singleton.mpr rfl
  · intro hW
    simp only [checkBrokenExtra]
    refine List.mem_append.mpr (Or.inr ?_)
    refine List.mem_flatMap.mpr ⟨(r, groupOf m r), hpair, ?_⟩
    rw [if_pos ⟨hr, show 1 < (groupOf m r).length by omega⟩, if_neg (by omega)]
    exact List.mem_singleton.mpr rfl

/-! ## Angle symmetry under direction reversal -/

lemma dist2_symm (p q : ℝ × ℝ) : dist2 p q = dist2 q p := by
  unfold dist2 norm2
  congr 1
  ring

lemma arcLength_concat (a : ℝ × ℝ) :
    ∀ (l : List (ℝ × ℝ)) (x : ℝ × ℝ),
      arcLength ((x :: l) ++ [a]) =
        arcLength (x :: l) + dist2 (((x :: l).getLast?).getD (0, 0)) a := by
  intro l
  induction l with
  | nil =>
    intro x
    show arcLength [x, a] = arcLength [x] + dist2 x a
    show dist2 x a + arcLength [a] = arcLength [x] + dist2 x a
    show dist2 x a + 0 = 0 + dist2 x a
    ring
  | cons y t ih =>
    intro x
    have h1 : arcLength ((x :: y :: t) ++ [a]) =
        dist2 x y + arcLength ((y :: t) ++ [a]) := rfl
    have h2 : arcLength (x :: y :: t) = dist2 x y + arcLength (y :: t) := rfl
    rw [h1, ih y, h2, List.getLast?_cons_cons]
    ring

lemma arcLength_reverse : ∀ l : List (ℝ × ℝ), arcLength l.reverse = arcLength l := by
  intro l
  induction l with
  | nil => rfl
  | cons x t ih =>
    cases t with
    | nil => rfl
    | cons y t2 =>
      rw [List.reverse_cons]
      rcases hrev : (y :: t2).reverse with _ | ⟨z, zs⟩
      · exact absurd hrev (by simp)
      · rw [arcLength_concat x (zs) z]
        rw [hrev] at ih
        rw [ih]
        have hlast : ((z :: zs).getLast?).getD (0, 0) = y := by
          rw [← hrev, List.getLast?_reverse]
          rfl
        rw [hlast]
        show arcLength (y :: t2) + dist2 y x = dist2 x y + arcLength (y :: t2)
        rw [dist2_symm]
        ring

lemma zip_reverse : ∀ (x : List ℝ) (y : List ℝ), x.length = y.length →
    x.reverse.zip y.reverse = (x.zip y).reverse := by
  intro x
  induction x with
  | nil => intro y h; simp
  | cons a xs ih =>
    intro y h
    cases y with
    | nil => simp at h
    | cons b ys =>
      simp only [List.length_cons, Nat.add_right_cancel_iff] at h
      rw [List.reverse_cons, List.reverse_cons,
        List.zip_append (by rw [List.length_reverse, List.length_reverse, h]),
        ih ys h]
      rw [show (a :: xs).zip (b :: ys) = (a, b) :: xs.zip ys from rfl,
        List.reverse_cons]
      rfl

lemma getD_revStroke (s : Stroke) (i : ℕ) :
    (revStroke s).getD i [] = (s.getD i []).reverse := by
  by_cases hi : i < s.length
  · rw [List.getD_eq_getElem _ _ (by simpa [revStroke] using hi),
      List.getD_eq_getElem _ _ hi]
    simp [revStroke]
  · rw [List.getD_eq_default _ _ (by simpa [revStroke] using hi),
      List.getD_eq_default _ _ (by omega)]
    rfl

lemma getD_zero_head? (l : List ℝ) (d : ℝ) : l.getD 0 d = (l.head?).getD d := by
  cases l <;> rfl

lemma extract_angle_Ioc (s : Stroke) :
    -Real.pi < (extract s).angle ∧ (extract s).angle ≤ Real.pi := by
  unfold extract
  by_cases h : (1e-6 : ℝ) < norm2
      ((((s.getD 0 []).getLast?.getD 0) - (s.getD 0 []).getD 0 0),
       (((s.getD 1 []).getLast?.getD 0) - (s.getD 1 []).getD 0 0))
  · simp only [if_pos h]
    exact ⟨Complex.neg_pi_lt_arg _, Complex.arg_le_pi _⟩
  · simp only [if_neg h]
    constructor
    · simpa using Real.pi_pos
    · exact le_of_lt Real.pi_pos

/-- The feature-level angle-symmetry law: reversing a stroke's point
order keeps center and arc length, swaps start and end, and (when the
chord is long enough for the extractor's guard) shifts the chord angle by
exactly `π` as an angle modulo `2π`. -/
lemma extract_revStroke (s : Stroke)
    (hlen : (s.getD 0 []).length = (s.getD 1 []).length) :
    (extract (revStroke s)).center = (extract s).center ∧
    (extract (revStroke s)).length = (extract s).length ∧
    (extract (revStroke s)).startPoint = (extract s).endPoint ∧
    (extract (revStroke s)).endPoint = (extract s).startPoint ∧
    ((1e-6 : ℝ) < norm2 ((extract s).endPoint.1 - (extract s).startPoint.1,
        (extract s).endPoint.2 - (extract s).startPoint.2) →
      ((extract (revStroke s)).angle : Real.Angle) = (extract s).angle + Real.pi) := by
  have hx : (revStroke s).getD 0 [] = (s.getD 0 []).reverse := getD_revStroke s 0
  have hy : (revStroke s).getD 1 [] = (s.getD 1 []).reverse := getD_revStroke s 1
  set x := s.getD 0 [] with hxdef
  set y := s.getD 1 [] with hydef
  have hstart : (extract (revStroke s)).startPoint = (extract s).endPoint := by
    simp only [extract, hx, hy]
    rw [getD_zero_head? x.reverse, getD_zero_head? y.reverse,
      List.head?_reverse, List.head?_reverse]
  have hend : (extract (revStroke s)).endPoint = (extract s).startPoint := by
    simp only [extract, hx, hy]
    rw [List.getLast?_reverse, List.getLast?_reverse,
      getD_zero_head? x, getD_zero_head? y]
  refine ⟨?_, ?_, hstart, hend, ?_⟩
  · simp only [extract, hx, hy]
    rw [List.sum_reverse, List.sum_reverse, List.length_reverse,
      List.length_reverse]
  · simp only [extract, hx, hy]
    rw [zip_reverse x y hlen, arcLength_reverse]
  · intro hchord
    have hend1 : (extract s).endPoint.1 = (x.getLast?).getD 0 := rfl
    have hend2 : (extract s).endPoint.2 = (y.getLast?).getD 0 := rfl
    have hst1 : (extract s).startPoint.1 = x.getD 0 0 := rfl
    have hst2 : (extract s).startPoint.2 = y.getD 0 0 := rfl
    rw [hend1, hend2, hst1, hst2] at hchord
    have hnorm2eq : norm2 (x.getD 0 0 - (x.getLast?).getD 0,
        y.getD 0 0 - (y.getLast?).getD 0) =
        norm2 ((x.getLast?).getD 0 - x.getD 0 0,
          (y.getLast?).getD 0 - y.getD 0 0) := by
      unfold norm2
      congr 1
      ring
    have hang : (extract s).angle =
        Complex.arg ⟨(y.getLast?).getD 0 - y.getD 0 0,
          (x.getLast?).getD 0 - x.getD 0 0⟩ := by
      simp only [extract]
      rw [if_pos hchord]
    have hang' : (extract (revStroke s)).angle =
        Complex.arg ⟨y.getD 0 0 - (y.getLast?).getD 0,
          x.getD 0 0 - (x.getLast?).getD 0⟩ := by
      simp only [extract, hx, hy]
      rw [getD_zero_head? x.reverse, getD_zero_head? y.reverse,
        List.head?_reverse, List.head?_reverse,
        List.getLast?_reverse, List.getLast?_reverse,
        ← getD_zero_head? x, ← getD_zero_head? y]
      rw [hnorm2eq, if_pos hchord]
    have hz : (⟨(y.getLast?).getD 0 - y.getD 0 0,
        (x.getLast?).getD 0 - x.getD 0 0⟩ : ℂ) ≠ 0 := by
      intro h0
      have hre : (y.getLast?).getD 0 - y.getD 0 0 = 0 := by
        simpa using congrArg Complex.re h0
      have him : (x.getLast?).getD 0 - x.getD 0 0 = 0 := by
        simpa using congrArg Complex.im h0
      rw [hre, him, norm2_zero] at hchord
      norm_num at hchord
    have hneg : (⟨y.getD 0 0 - (y.getLast?).getD 0,
        x.getD 0 0 - (x.getLast?).getD 0⟩ : ℂ) =
        -(⟨(y.getLast?).getD 0 - y.getD 0 0,
          (x.getLast?).getD 0 - x.getD 0 0⟩ : ℂ) := by
      apply Complex.ext
      · simp only [Complex.neg_re]
        ring
      · simp only [Complex.neg_im]
        ring
    rw [hang, hang', hneg]
    exact Complex.arg_neg_coe_angle hz

/-- Two angles in `(-π, π]` that differ by `π` modulo `2π` have wrapped
absolute difference exactly `π`. -/
lemma wrapped_diff_pi {a b : ℝ}
    (hb1 : -Real.pi < b) (hb2 : b ≤ Real.pi)
    (ha1 : -Real.pi < a) (ha2 : a ≤ Real.pi)
    (heq : (b : Real.Angle) = (a : Real.Angle) + (Real.pi : Real.Angle)) :
    (if Real.pi < |b - a| then 2 * Real.pi - |b - a| else |b - a|) = Real.pi := by
  have hpi := Real.pi_pos
  have heq' : (b : Real.Angle) = ((a + Real.pi : ℝ) : Real.Angle) := by
    rw [Real.Angle.coe_add]
    exact heq
  obtain ⟨k, hk⟩ := Real.Angle.angle_eq_iff_two_pi_dvd_sub.mp heq'
  have hk1 : (k : ℝ) < 1 / 2 := by nlinarith
  have hk2 : (-3 / 2 : ℝ) < k := by nlinarith
  have hkint : k = -1 ∨ k = 0 := by
    have h1 : k < 1 := by exact_mod_cast hk1.trans (by norm_num : (1 / 2 : ℝ) < 1)
    have h2 : (-2 : ℤ) < k := by
      have : (-2 : ℝ) < k := lt_trans (by norm_num) hk2
      exact_mod_cast this
    omega
  have habs : |b - a| = Real.pi := by
    rcases hkint with rfl | rfl
    · have : b - a = -Real.pi := by
        push_cast at hk
        linarith
      rw [this, abs_neg, abs_of_pos hpi]
    · have : b - a = Real.pi := by
        push_cast at hk
        linarith

      rw [this, abs_of_pos hpi]
  rw [habs, if_neg (lt_irrefl _)]

/-- Membership in the orientation pass: a matched index whose wrapped
angle difference exceeds the threshold contributes its record. -/
lemma checkOrient_mem (m : List ℕ) (wf rf : List StrokeFeatures) (th : ℝ)
    (i : ℕ) (hi : i < m.length)
    (hg0 : m.getD i 0 ≠ 0) (hgR : ¬ rf.length < m.getD i 0)
    (hth : th < (if Real.pi <
        |(wf.getD i default).angle - (rf.getD (m.getD i 0 - 1) default).angle| then
      2 * Real.pi -
        |(wf.getD i default).angle - (rf.getD (m.getD i 0 - 1) default).angle|
      else
        |(wf.getD i default).angle - (rf.getD (m.getD i 0 - 1) default).angle|)) :
    ErrorRecord.orient i (m.getD i 0 - 1)
      (degrees (if Real.pi <
          |(wf.getD i default).angle - (rf.getD (m.getD i 0 - 1) default).angle| then
        2 * Real.pi -
          |(wf.getD i default).angle - (rf.getD (m.getD i 0 - 1) default).angle|
        else
          |(wf.getD i default).angle - (rf.getD (m.getD i 0 - 1) default).angle|)) ∈
      checkOrient m wf rf th := by
  unfold checkOrient
  refine List.mem_filterMap.mpr ⟨(i, m.getD i 0), ?_, ?_⟩
  · have hienum : i < m.enum.length := by
      rw [List.enum_length]
      exact hi
    have := List.getElem_enum m i hienum
    rw [List.getD_eq_getElem _ _ hi]
    rw [← this]
    exact List.getElem_mem _
  · rw [if_neg (by
      push_neg
      exact ⟨hg0, Nat.not_lt.mp hgR⟩)]
    rw [if_pos hth]

lemma identityMap_getD {R i : ℕ} (hi : i < R) : (identityMap R).getD i 0 = i + 1 := by
  unfold identityMap
  rw [List.getD_eq_getElem _ _ (by rw [List.length_range']; exact hi)]
  rw [List.getElem_range']
  omega

/-- `degrees π = 180`. -/
lemma degrees_pi : degrees Real.pi = 180 := by
  unfold degrees
  field_simp

/-- A reversed stroke in an otherwise-identity match produces an
`ORIENTATION` record with an angle difference of 180 degrees. -/
lemma detect_orientation_of_rev (rf : List StrokeFeatures) (i : ℕ) (s : Stroke)
    (hi : i < rf.length)
    (href : rf.getD i default = extract s)
    (hrow : (s.getD 0 []).length = (s.getD 1 []).length)
    (hchord : (1e-6 : ℝ) < norm2
      ((extract s).endPoint.1 - (extract s).startPoint.1,
       (extract s).endPoint.2 - (extract s).startPoint.2)) :
    ErrorRecord.orient i i 180 ∈
      detectErrors (identityMap rf.length) (rf.set i (extract (revStroke s))) rf
        (Real.pi / 4) := by
  have hgetD : (identityMap rf.length).getD i 0 = i + 1 := identityMap_getD hi
  have hwf : (rf.set i (extract (revStroke s))).getD i default =
      extract (revStroke s) := by
    rw [List.getD_eq_getElem _ _ (by rw [List.length_set]; exact hi)]
    exact List.getElem_set_self _
  have hrfi : rf.getD ((identityMap rf.length).getD i 0 - 1) default = extract s := by
    rw [hgetD]
    simpa using href
  obtain ⟨_, _, _, _, hangle⟩ := extract_revStroke s hrow
  have hang := hangle hchord
  obtain ⟨hb1, hb2⟩ := extract_angle_Ioc (revStroke s)
  obtain ⟨ha1, ha2⟩ := extract_angle_Ioc s
  have hwrap := wrapped_diff_pi hb1 hb2 ha1 ha2 hang
  have hlen : i < (identityMap rf.length).length := by
    unfold identityMap
    rw [List.length_range']
    exact hi
  have hmem := checkOrient_mem (identityMap rf.length)
    (rf.set i (extract (revStroke s))) rf (Real.pi / 4) i hlen
    (by rw [hgetD]; omega)
    (by rw [hgetD]; omega)
    (by
      rw [hwf, hrfi, hwrap]
      linarith [Real.pi_pos])
  rw [hwf, hrfi, hwrap, degrees_pi, hgetD] at hmem
  simp only [Nat.add_sub_cancel] at hmem
  unfold detectErrors
  simp only [List.mem_append]
  exact Or.inl (Or.inr hmem)

/-! ## The tiny-chord corner of the angle symmetry -/

lemma sTiny_norm : norm2 ((1 / 10000000 : ℝ) - 0, (0 : ℝ) - 0) = 1 / 10000000 := by
  unfold norm2
  rw [show ((1 / 10000000 : ℝ) - 0) ^ 2 + ((0 : ℝ) - 0) ^ 2 =
    (1 / 10000000 : ℝ) ^ 2 by norm_num]
  rw [Real.sqrt_sq (by norm_num)]

lemma sTiny_norm_rev : norm2 ((0 : ℝ) - 1 / 10000000, (0 : ℝ) - 0) = 1 / 10000000 := by
  unfold norm2
  rw [show ((0 : ℝ) - 1 / 10000000) ^ 2 + ((0 : ℝ) - 0) ^ 2 =
    (1 / 10000000 : ℝ) ^ 2 by norm_num]
  rw [Real.sqrt_sq (by norm_num)]

lemma extract_sTiny_angle : (extract sTiny).angle = 0 := by
  have h1 : (extract sTiny).angle =
      if (1e-6 : ℝ) < norm2 ((1 / 10000000 : ℝ) - 0, (0 : ℝ) - 0) then
        Complex.arg ⟨(0 : ℝ) - 0, (1 / 10000000 : ℝ) - 0⟩
      else 0 := rfl
  rw [h1, sTiny_norm, if_neg (by norm_num)]

lemma extract_sTiny_rev_angle : (extract (revStroke sTiny)).angle = 0 := by
  have h1 : (extract (revStroke sTiny)).angle =
      if (1e-6 : ℝ) < norm2 ((0 : ℝ) - 1 / 10000000, (0 : ℝ) - 0) then
        Complex.arg ⟨(0 : ℝ) - 0, (0 : ℝ) - 1 / 10000000⟩
      else 0 := rfl
  rw [h1, sTiny_norm_rev, if_neg (by norm_num)]

/-! ## Normalization: explicit form and idempotence -/

/-- Explicit value of the normalizer on valid input. -/
lemma normalize_eq_of_valid (t : ℝ) {strokes : List Stroke}
    (hne : strokes ≠ []) (hrows : ∀ s ∈ strokes, 2 ≤ s.length)
    (hx : allXOf strokes ≠ []) (hy : allYOf strokes ≠ []) :
    normalize t strokes = .ok
      (strokes.map (normStroke (listMin (allXOf strokes))
        (listMin (allYOf strokes)) (scaleOf t strokes)),
       some (metaOf t strokes)) := by
  cases strokes with
  | nil => exact absurd rfl hne
  | cons a rest =>
    simp only [normalize]
    rw [if_neg (by
      simp only [List.any_eq_true, not_exists]
      intro s
      simp only [decide_eq_true_eq, not_and]
      intro hs
      have := hrows s hs
      omega)]
    rw [if_neg (by
      rw [List.isEmpty_iff]
      exact fun h => hx h)]
    rw [if_neg (by
      rw [List.isEmpty_iff]
      exact fun h => hy h)]
    rfl

lemma foldl_min_le_self (x : ℝ) (xs : List ℝ) : xs.foldl min x ≤ x := by
  induction xs generalizing x with
  | nil => simp
  | cons y ys ih => exact le_trans (ih _) (min_le_left x y)

lemma listMin_le_listMax {l : List ℝ} (h : l ≠ []) : listMin l ≤ listMax l := by
  cases l with
  | nil => exact absurd rfl h
  | cons x xs =>
    exact le_trans (foldl_min_le_self x xs) (foldl_max_le_self x xs)

lemma scaleOf_pos {t : ℝ} (ht : 0 < t) {strokes : List Stroke}
    (hx : allXOf strokes ≠ []) (hy : allYOf strokes ≠ []) :
    0 < scaleOf t strokes := by
  have hw : 0 ≤ listMax (allXOf strokes) - listMin (allXOf strokes) := by
    have := listMin_le_listMax hx
    linarith
  have hh : 0 ≤ listMax (allYOf strokes) - listMin (allYOf strokes) := by
    have := listMin_le_listMax hy
    linarith
  unfold scaleOf
  by_cases h1 : listMax (allXOf strokes) - listMin (allXOf strokes) = 0 ∧
      listMax (allYOf strokes) - listMin (allYOf strokes) = 0
  · rw [if_pos h1]
    norm_num
  · rw [if_neg h1]
    by_cases h2 : listMax (allXOf strokes) - listMin (allXOf strokes) = 0
    · rw [if_pos h2]
      refine div_pos ht ?_
      rcases (not_and.mp h1 h2 : _) with h3
      cases lt_or_eq_of_le hh with
      | inl h => exact h
      | inr h => exact absurd h.symm h3
    · rw [if_neg h2]
      have hwpos : 0 < listMax (allXOf strokes) - listMin (allXOf strokes) := by
        cases lt_or_eq_of_le hw with
        | inl h => exact h
        | inr h => exact absurd h.symm h2
      by_cases h3 : listMax (allYOf strokes) - listMin (allYOf strokes) = 0
      · rw [if_pos h3]
        exact div_pos ht hwpos
      · rw [if_neg h3]
        exact div_pos ht (lt_of_lt_of_le hwpos (le_max_left _ _))

lemma foldl_min_map_affine (m s : ℝ) (hs : 0 ≤ s) :
    ∀ (xs : List ℝ) (x0 : ℝ),
      (xs.map fun v => (v - m) * s).foldl min ((x0 - m) * s) =
        (xs.foldl min x0 - m) * s := by
  intro xs
  induction xs with
  | nil => intro x0; rfl
  | cons y ys ih =>
    intro x0
    rw [List.map_cons, List.foldl_cons, List.foldl_cons]
    rw [← ih (min x0 y)]
    congr 1
    rw [← min_mul_of_nonneg _ _ hs, min_sub_sub_right]

lemma foldl_max_map_affine (m s : ℝ) (hs : 0 ≤ s) :
    ∀ (xs : List ℝ) (x0 : ℝ),
      (xs.map fun v => (v - m) * s).foldl max ((x0 - m) * s) =
        (xs.foldl max x0 - m) * s := by
  intro xs
  induction xs with
  | nil => intro x0; rfl
  | cons y ys ih =>
    intro x0
    rw [List.map_cons, List.foldl_cons, List.foldl_cons]
    rw [← ih (max x0 y)]
    congr 1
    rw [← max_mul_of_nonneg _ _ hs, max_sub_sub_right]

lemma listMin_map_affine {l : List ℝ} (hl : l ≠ []) (m s : ℝ) (hs : 0 ≤ s) :
    listMin (l.map fun v => (v - m) * s) = (listMin l - m) * s := by
  cases l with
  | nil => exact absurd rfl hl
  | cons x xs =>
    rw [List.map_cons]
    exact foldl_min_map_affine m s hs xs x

lemma listMax_map_affine {l : List ℝ} (hl : l ≠ []) (m s : ℝ) (hs : 0 ≤ s) :
    listMax (l.map fun v => (v - m) * s) = (listMax l - m) * s := by
  cases l with
  | nil => exact absurd rfl hl
  | cons x xs =>
    rw [List.map_cons]
    exact foldl_max_map_affine m s hs xs x

lemma normStroke_length (mx my sc : ℝ) (s : Stroke) :
    (normStroke mx my sc s).length = s.length := by
  unfold normStroke
  match s with
  | [] => rfl
  | [r0] => rfl
  | r0 :: r1 :: rest => simp

lemma normStroke_getD0 (mx my sc : ℝ) {s : Stroke} (h : 2 ≤ s.length) :
    (normStroke mx my sc s).getD 0 [] = (s.getD 0 []).map fun v => (v - mx) * sc := by
  match s, h with
  | r0 :: r1 :: rest, _ => rfl

lemma normStroke_getD1 (mx my sc : ℝ) {s : Stroke} (h : 2 ≤ s.length) :
    (normStroke mx my sc s).getD 1 [] = (s.getD 1 []).map fun v => (v - my) * sc := by
  match s, h with
  | r0 :: r1 :: rest, _ => rfl

lemma allXOf_map_normStroke {strokes : List Stroke}
    (hrows : ∀ s ∈ strokes, 2 ≤ s.length) (mx my sc : ℝ) :
    allXOf (strokes.map (normStroke mx my sc)) =
      (allXOf strokes).map fun v => (v - mx) * sc := by
  induction strokes with
  | nil => rfl
  | cons a t ih =>
    have ha : 2 ≤ a.length := hrows a (List.mem_cons_self a t)
    have ht : ∀ s ∈ t, 2 ≤ s.length := fun s hs =>
      hrows s (List.mem_cons.mpr (Or.inr hs))
    unfold allXOf at ih ⊢
    rw [List.map_cons, List.flatMap_cons, List.flatMap_cons, List.map_append,
      ih ht, normStroke_getD0 mx my sc ha]

lemma allYOf_map_normStroke {strokes : List Stroke}
    (hrows : ∀ s ∈ strokes, 2 ≤ s.length) (mx my sc : ℝ) :
    allYOf (strokes.map (normStroke mx my sc)) =
      (allYOf strokes).map fun v => (v - my) * sc := by
  induction strokes with
  | nil => rfl
  | cons a t ih =>
    have ha : 2 ≤ a.length := hrows a (List.mem_cons_self a t)
    have ht : ∀ s ∈ t, 2 ≤ s.length := fun s hs =>
      hrows s (List.mem_cons.mpr (Or.inr hs))
    unfold allYOf at ih ⊢
    rw [List.map_cons, List.flatMap_cons, List.flatMap_cons, List.map_append,
      ih ht, normStroke_getD1 mx my sc ha]

lemma normStroke_id (s : Stroke) : normStroke 0 0 1 s = s := by
  unfold normStroke
  match s with
  | [] => rfl
  | [r0] => rfl
  | r0 :: r1 :: rest =>
    have hmap : ∀ l : List ℝ, (l.map fun v => (v - 0) * 1) = l := by
      intro l
      rw [show (fun v : ℝ => (v - 0) * 1) = fun v : ℝ => v by
        funext v
        ring]
      exact List.map_id' l
    show (r0.map fun v => (v - 0) * 1) :: (r1.map fun v => (v - 0) * 1) :: rest =
      r0 :: r1 :: rest
    rw [hmap r0, hmap r1]

lemma normStroke_drop2 (mx my sc : ℝ) (s : Stroke) :
    (normStroke mx my sc s).drop 2 = s.drop 2 := by
  unfold normStroke
  match s with
  | [] => rfl
  | [r0] => rfl
  | r0 :: r1 :: rest => rfl

/-- Inverting a successful normalization of a nonempty stroke list: the
validity conditions held and the result is the explicit rescaling. -/
lemma normalize_ok_valid_inv {t : ℝ} {strokes : List Stroke}
    {pr : List Stroke × Option NormMeta}
    (h : normalize t strokes = .ok pr) (hne : strokes ≠ []) :
    (∀ s ∈ strokes, 2 ≤ s.length) ∧ allXOf strokes ≠ [] ∧ allYOf strokes ≠ [] ∧
    pr = (strokes.map (normStroke (listMin (allXOf strokes))
        (listMin (allYOf strokes)) (scaleOf t strokes)),
      some (metaOf t strokes)) := by
  have hrows : ∀ s ∈ strokes, 2 ≤ s.length := by
    by_contra hbad
    push_neg at hbad
    obtain ⟨s0, hs0, hlen⟩ := hbad
    rw [normalize_invalid t ⟨s0, hs0, hlen⟩] at h
    exact absurd h (by simp)
  have hx : allXOf strokes ≠ [] := by
    intro hxe
    cases strokes with
    | nil => exact absurd rfl hne
    | cons a rest =>
      simp only [normalize] at h
      rw [if_neg (by
        simp only [List.any_eq_true, not_exists]
        intro s
        simp only [decide_eq_true_eq, not_and]
        intro hs
        have := hrows s hs
        omega)] at h
      rw [if_pos (by rw [List.isEmpty_iff]; exact hxe)] at h
      exact absurd h (by simp)
  have hy : allYOf strokes ≠ [] := by
    intro hye
    cases strokes with
    | nil => exact absurd rfl hne
    | cons a rest =>
      simp only [normalize] at h
      rw [if_neg (by
        simp only [List.any_eq_true, not_exists]
        intro s
        simp only [decide_eq_true_eq, not_and]
        intro hs
        have := hrows s hs
        omega)] at h
      by_cases h2 : ((a :: rest).flatMap fun s => List.getD s 0 []).isEmpty = true
      · rw [if_pos h2] at h
        exact absurd h (by simp)
      · rw [if_neg h2] at h
        rw [if_pos (by rw [List.isEmpty_iff]; exact hye)] at h
        exact absurd h (by simp)
  refine ⟨hrows, hx, hy, ?_⟩
  rw [normalize_eq_of_valid t hne hrows hx hy] at h
  simpa using h.symm

/-- Idempotence core: the output of a valid normalization renormalizes to
itself — its bounding-box minimum is the origin, its larger dimension
equals the target, so the second pass uses scale `1` and zero
translation. -/
lemma normalize_idem (t : ℝ) (ht : 0 < t) {strokes : List Stroke}
    (hne : strokes ≠ []) (hrows : ∀ s ∈ strokes, 2 ≤ s.length)
    (hx : allXOf strokes ≠ []) (hy : allYOf strokes ≠ []) :
    normalize t (strokes.map (normStroke (listMin (allXOf strokes))
        (listMin (allYOf strokes)) (scaleOf t strokes))) =
      .ok (strokes.map (normStroke (listMin (allXOf strokes))
          (listMin (allYOf strokes)) (scaleOf t strokes)),
        some (metaOf t (strokes.map (normStroke (listMin (allXOf strokes))
          (listMin (allYOf strokes)) (scaleOf t strokes))))) := by
  have hscpos : 0 < scaleOf t strokes := scaleOf_pos ht hx hy
  have hsc0 : (0 : ℝ) ≤ scaleOf t strokes := le_of_lt hscpos
  set xm := listMin (allXOf strokes) with hxm
  set ym := listMin (allYOf strokes) with hym
  set sc := scaleOf t strokes with hscdef
  set ns := strokes.map (normStroke xm ym sc) with hns
  have hnsne : ns ≠ [] := by
    rw [hns]
    cases strokes with
    | nil => exact absurd rfl hne
    | cons a rest => simp
  have hnsrows : ∀ s ∈ ns, 2 ≤ s.length := by
    intro s hs
    rw [hns] at hs
    obtain ⟨u, hu, rfl⟩ := List.mem_map.mp hs
    rw [normStroke_length]
    exact hrows u hu
  have hax : allXOf ns = (allXOf strokes).map fun v => (v - xm) * sc := by
    rw [hns]
    exact allXOf_map_normStroke hrows xm ym sc
  have hay : allYOf ns = (allYOf strokes).map fun v => (v - ym) * sc := by
    rw [hns]
    exact allYOf_map_normStroke hrows xm ym sc
  have haxne : allXOf ns ≠ [] := by
    rw [hax]
    simpa using hx
  have hayne : allYOf ns ≠ [] := by
    rw [hay]
    simpa using hy
  have hminx : listMin (allXOf ns) = 0 := by
    rw [hax, listMin_map_affine hx xm sc hsc0, ← hxm, sub_self, zero_mul]
  have hminy : listMin (allYOf ns) = 0 := by
    rw [hay, listMin_map_affine hy ym sc hsc0, ← hym, sub_self, zero_mul]
  have hmaxx : listMax (allXOf ns) = (listMax (allXOf strokes) - xm) * sc := by
    rw [hax, listMax_map_affine hx xm sc hsc0]
  have hmaxy : listMax (allYOf ns) = (listMax (allYOf strokes) - ym) * sc := by
    rw [hay, listMax_map_affine hy ym sc hsc0]
  have htne : t ≠ 0 := ne_of_gt ht
  have hw0 : 0 ≤ listMax (allXOf strokes) - xm := by
    have := listMin_le_listMax hx
    rw [← hxm] at this
    linarith
  have hh0 : 0 ≤ listMax (allYOf strokes) - ym := by
    have := listMin_le_listMax hy
    rw [← hym] at this
    linarith
  have hsc2 : scaleOf t ns = 1 := by
    unfold scaleOf
    rw [hminx, hminy, hmaxx, hmaxy, sub_zero, sub_zero]
    set w := listMax (allXOf strokes) - xm with hwdef
    set hgt := listMax (allYOf strokes) - ym with hhdef
    have hscval : sc = if w = 0 ∧ hgt = 0 then 1 else if w = 0 then t / hgt
        else if hgt = 0 then t / w else t / max w hgt := by
      rw [hscdef]
      rfl
    by_cases hcw : w = 0
    · by_cases hch : hgt = 0
      · rw [if_pos ⟨by rw [hcw, zero_mul], by rw [hch, zero_mul]⟩]
      · have hhpos : 0 < hgt := lt_of_le_of_ne hh0 (Ne.symm hch)
        have hscv : sc = t / hgt := by
          rw [hscval, if_neg (by tauto), if_pos hcw]
        have hprod : hgt * sc = t := by
          rw [hscv]
          field_simp
        rw [if_neg (by
          intro hand
          rw [hprod] at hand
          exact htne hand.2)]
        rw [if_pos (by rw [hcw, zero_mul]), hprod, div_self htne]
    · have hwpos : 0 < w := lt_of_le_of_ne hw0 (Ne.symm hcw)
      by_cases hch : hgt = 0
      · have hscv : sc = t / w := by
          rw [hscval, if_neg (by tauto), if_neg hcw, if_pos hch]
        have hprod : w * sc = t := by
          rw [hscv]
          field_simp
        rw [if_neg (by
          intro hand
          rw [hprod] at hand
          exact htne hand.1)]
        rw [if_neg (by rw [hprod]; exact htne)]
        rw [if_pos (by rw [hch, zero_mul]), hprod, div_self htne]
      · have hhpos : 0 < hgt := lt_of_le_of_ne hh0 (Ne.symm hch)
        have hscv : sc = t / max w hgt := by
          rw [hscval, if_neg (by tauto), if_neg hcw, if_neg hch]
        have hmaxpos : 0 < max w hgt := lt_of_lt_of_le hwpos (le_max_left _ _)
        have hprod : max w hgt * sc = t := by
          rw [hscv]
          field_simp
        have hwne : w * sc ≠ 0 :=
          ne_of_gt (mul_pos hwpos hscpos)
        have hhne : hgt * sc ≠ 0 :=
          ne_of_gt (mul_pos hhpos hscpos)
        rw [if_neg (by intro hand; exact hwne hand.1)]
        rw [if_neg hwne, if_neg hhne]
        rw [← max_mul_of_nonneg _ _ hsc0, hprod, div_self htne]
  have hfinal : ns.map (normStroke (listMin (allXOf ns)) (listMin (allYOf ns))
      (scaleOf t ns)) = ns := by
    rw [hminx, hminy, hsc2]
    rw [List.map_congr_left fun s _ => normStroke_id s]
    exact List.map_id' ns
  rw [normalize_eq_of_valid t hnsne hnsrows haxne hayne, hfinal]

/-- `distinct_matched` counts the distinct positive genes of `m`: the
dictionary keys are the distinct genes, so filtering the positive ones
agrees with filtering `m.dedup`. -/
lemma distinctMatched_eq_dedup (m : List ℕ) :
    distinctMatched m = (m.dedup.filter fun k => 0 < k).length := by
  unfold distinctMatched
  rw [refGroups_eq, List.filter_map, List.length_map]
  have hstep : List.filter ((fun kv => decide (0 < kv.1)) ∘ fun r => (r, groupOf m r))
      (keysIn m) = (keysIn m).filter fun k => decide (0 < k) := by
    refine List.filter_congr ?_
    intro a _
    simp [Function.comp]
  rw [hstep]
  have hnd1 : ((keysIn m).filter fun k => decide (0 < k)).Nodup :=
    (keysIn_nodup m).filter _
  have hnd2 : (m.dedup.filter fun k => decide (0 < k)).Nodup :=
    m.nodup_dedup.filter _
  have hfs : ((keysIn m).filter fun k => decide (0 < k)).toFinset =
      (m.dedup.filter fun k => decide (0 < k)).toFinset := by
    apply Finset.ext
    intro a
    simp only [List.mem_toFinset, List.mem_filter, List.mem_dedup]
    rw [mem_keysIn]
  rw [← List.toFinset_card_of_nodup hnd1, ← List.toFinset_card_of_nodup hnd2, hfs]

/-! ## Claims -/

/-- C1 (counterexample). The identity-match law fails as stated: on the
two-stroke input `[sPtA, sPtB]` matched against an identical copy of
itself, the GA under the random stream `oracleSwap` (which shuffles every
initial chromosome to `[2, 1]` and never crossbreeds or mutates) returns
the assignment `[2, 1]`, not the identity `[1, 2]`. -/
theorem c1_identity_counterexample :
    mappingOf (matchStrokes defaultCfg [sPtA, sPtB] [sPtA, sPtB] oracleSwap) =
      some (some [2, 1]) ∧ ([2, 1] : List ℕ) ≠ [1, 2] := by
  obtain ⟨res, hres, hmap⟩ := matchStrokes_two_swap
  refine ⟨?_, by decide⟩
  rw [hres]
  show some res.mapping = some (some [2, 1])
  rw [hmap]

/-- C1 (amended). Identity match holds unconditionally only for `R = 1`:
for every random stream and every valid single stroke, matching the
stroke against itself returns the identity assignment `[1]` and an empty
error list.  (For `R ≥ 2` the stochastic search may return a non-identity
permutation, as the counterexample shows.) -/
theorem c1_identity_match_amended (s : Stroke) (o : Oracle)
    (hrows : 2 ≤ s.length) (hx : s.getD 0 [] ≠ []) (hy : s.getD 1 [] ≠ []) :
    mappingOf (matchStrokes defaultCfg [s] [s] o) = some (some [1]) ∧
    errorsOf (matchStrokes defaultCfg [s] [s] o) = some [] := by
  obtain ⟨res, hres, hmap, herr, _, _, _⟩ := matchStrokes_identity_one s o hrows hx hy
  rw [hres]
  refine ⟨?_, ?_⟩
  · show some res.mapping = some (some [1])
    rw [hmap]
  · show some res.errors = some []
    rw [herr]

/-- C1 (witness): the amended identity law at the concrete stroke
`sZero` and the concrete random stream `oracleSwap`. -/
theorem c1_identity_match_witness :
    mappingOf (matchStrokes defaultCfg [sZero] [sZero] oracleSwap) =
      some (some [1]) ∧
    errorsOf (matchStrokes defaultCfg [sZero] [sZero] oracleSwap) = some [] :=
  c1_identity_match_amended sZero oracleSwap (le_refl 2)
    (by simp [sZero]) (by simp [sZero])

/-- C2. For every final assignment `m` and every positive reference gene
`r` with at least two written indices mapped to it, the classifier emits
an `EXTRA` record listing the group minus its first member when `W`
exceeds `U` (the number of distinct positive genes, here written as the
claim states it, via `dedup`), and otherwise a `BROKEN` record listing
the whole group with the reference index. -/
theorem c2_broken_extra (m : List ℕ) (r : ℕ) (hr : 0 < r)
    (hlen : 2 ≤ (groupOf m r).length) :
    ((m.dedup.filter fun k => 0 < k).length < m.length →
      ErrorRecord.extra (groupOf m r).tail (some (r - 1)) ∈ checkBrokenExtra m) ∧
    (m.length ≤ (m.dedup.filter fun k => 0 < k).length →
      ErrorRecord.broken (groupOf m r) (r - 1) ∈ checkBrokenExtra m) := by
  have hU : distinctMatched m = (m.dedup.filter fun k => 0 < k).length :=
    distinctMatched_eq_dedup m
  obtain ⟨h1, h2⟩ := checkBrokenExtra_mem m r hr hlen
  constructor
  · intro hW
    exact h1 (by rw [hU]; exact hW)
  · intro hW
    exact h2 (by rw [hU]; exact hW)

/-- C2 (witness): on the assignment `[1, 1]` (two written strokes, both
mapped to reference 1, `W = 2 > U = 1`) the surplus index `1` is
reported as `EXTRA` against reference index `0`. -/
theorem c2_broken_extra_witness :
    (0 : ℕ) < 1 ∧ 2 ≤ (groupOf [1, 1] 1).length ∧
    ErrorRecord.extra (groupOf [1, 1] 1).tail (some 0) ∈ checkBrokenExtra [1, 1] := by
  refine ⟨by decide, by decide, ?_⟩
  exact (c2_broken_extra [1, 1] 1 (by decide) (by decide)).1 (by decide)

/-- C3. The recorded best-fitness history of any successful GA run is
non-decreasing: the elitist copy of the all-time best chromosome placed
at the head of every next population guarantees
`best_fitness[g-1] ≤ best_fitness[g]`. -/
theorem c3_best_fitness_monotone {F : Type} [LinearOrderedField F] [DecidableEq F]
    (ga : GeneticAlgorithm) (fit : List ℕ → F) (o : Oracle) (res : GAResult F)
    (h : ga.evolve fit o = .ok res) :
    ∀ g, 1 ≤ g → g < res.historyBest.length →
      res.historyBest.getD (g - 1) 0 ≤ res.historyBest.getD g 0 := by
  have hch := evolve_chain h
  intro g hg hglen
  obtain ⟨g', rfl⟩ : ∃ g', g = g' + 1 := ⟨g - 1, by omega⟩
  rw [List.chain'_iff_get] at hch
  have := hch g' (by omega)
  rw [List.getD_eq_getElem _ _ (by omega : g' + 1 - 1 < res.historyBest.length),
    List.getD_eq_getElem _ _ hglen]
  simp only [List.get_eq_getElem] at this
  simpa using this

/-- C3 (witness): the monotone law applied to the concrete 11-generation
identity run of the GA on one stroke feature. -/
theorem c3_best_fitness_monotone_witness :
    (gaHistoryBest ((mkGA 1 1 none 100 (4 / 5) (1 / 10) 3 10).evolve
        (evaluateChromosome defaultParams [extract sZero] [extract sZero])
        oracleSwap)).getD 0 0 ≤
    (gaHistoryBest ((mkGA 1 1 none 100 (4 / 5) (1 / 10) 3 10).evolve
        (evaluateChromosome defaultParams [extract sZero] [extract sZero])
        oracleSwap)).getD 1 0 := by
  obtain ⟨res, hres, _, _, _, hhist⟩ :=
    evolve_identity_one defaultParams (extract sZero) oracleSwap
  rw [hres]
  exact c3_best_fitness_monotone _ _ _ res hres 1 (le_refl 1)
    (by rw [hhist]; norm_num)

/-- C4. The assignment of every successful `match` call has length
exactly `W` and every entry at most `R` (entries are naturals, so they
lie in `[0, R]`): chromosome creation establishes the shape and
tournament selection, single-point crossover and mutation preserve it. -/
theorem c4_assignment_shape (cfg : MatcherCfg) (w r : List Stroke) (o : Oracle)
    (res : MatchResult) (m : List ℕ)
    (h : matchStrokes cfg w r o = .ok res) (hm : res.mapping = some m) :
    m.length = w.length ∧ ∀ g ∈ m, g ≤ r.length := by
  obtain ⟨wn, rn, gaRes, m', hga, hm', hres⟩ := matchStrokes_ok_inv h
  have hmm : m = m' := by
    rw [hm] at hres
    simpa using hres
  subst hmm
  exact evolve_shape hga m (by simp [hm'])

/-- C4 (witness): the shape law at the concrete identity run on
`[sZero]` (`W = R = 1`, assignment `[1]`). -/
theorem c4_assignment_shape_witness :
    ([1] : List ℕ).length = List.length [sZero] ∧
    ∀ g ∈ ([1] : List ℕ), g ≤ List.length [sZero] := by
  obtain ⟨res, hres, hmap, _, _, _, _⟩ := matchStrokes_identity_one sZero oracleSwap
    (le_refl 2) (by simp [sZero]) (by simp [sZero])
  exact c4_assignment_shape defaultCfg [sZero] [sZero] oracleSwap res [1] hres hmap

/-- C5 (counterexample). With no written strokes and the default
configuration, `match` does not return an empty assignment with
fitness 1: it raises (`max()` of the empty fitness list, because the
default population size `8·W` is `0`), so the call produces an error and
no result. -/
theorem c5_counterexample :
    matchStrokes defaultCfg [] [sZero] oracleSwap = .error .maxEmpty :=
  matchStrokes_zero_written [sZero] oracleSwap (by simp)
    (by intro s hs; rw [List.mem_singleton.mp hs, show sZero.length = 2 from rfl])
    (by simp [sZero]) (by simp [sZero])

/-- C5 (amended). For `W = 0` the GA always fails, for every fitness
function, oracle, reference count, rate and control setting: the default
(falsy) population size evaluates to `8·0 = 0`, the population is empty,
and the first `max(fitnesses)` raises a `ValueError`. -/
theorem c5_zero_written_amended {F : Type} [LinearOrderedField F] [DecidableEq F]
    (fit : List ℕ → F) (o : Oracle) (R : ℕ) (cr mr : ℚ) (ts cg : ℕ) :
    (mkGA 0 R none 100 cr mr ts cg).evolve fit o = .error .maxEmpty :=
  evolve_zero_written fit o R cr mr ts cg

/-- C6 (counterexample). An empty reference list does not raise
`InvalidInput`: `match` happily returns a result mapping the single
written stroke to `0` (no match). -/
theorem c6_counterexample :
    mappingOf (matchStrokes defaultCfg [sZero] [] oracleSwap) = some (some [0]) := by
  obtain ⟨res, hres, hmap⟩ := matchStrokes_empty_reference oracleSwap
  rw [hres]
  show some res.mapping = some (some [0])
  rw [hmap]

/-- C6 (amended). Of the three advertised `InvalidInput` conditions, only
the row-count check exists, and it is applied to both lists: `match`
raises synchronously and produces no result whenever some written stroke
has fewer than two coordinate rows, and likewise when the written list
normalizes successfully (non-empty, all strokes with at least two rows,
non-empty x and y data) and some reference stroke has fewer than two
rows.  (Single-point polylines have two rows and so pass the check, and
an empty reference list paired with one valid written stroke returns a
normal result, as the counterexample shows.) -/
theorem c6_invalid_input_amended (cfg : MatcherCfg) (w r : List Stroke) (o : Oracle)
    (hflag : cfg.normFlag = true)
    (hbad : (∃ s ∈ w, s.length < 2) ∨
      ((w ≠ [] ∧ (∀ s ∈ w, 2 ≤ s.length) ∧
          w.flatMap (fun s => s.getD 0 []) ≠ [] ∧
          w.flatMap (fun s => s.getD 1 []) ≠ []) ∧
        ∃ s ∈ r, s.length < 2)) :
    matchStrokes cfg w r o = .error .invalidStroke := by
  rw [matchStrokes_norm cfg hflag]
  rcases hbad with hw | ⟨⟨hne, hrows, hx, hy⟩, hr⟩
  · rw [normalize_invalid 100 hw]
    rfl
  · obtain ⟨pr, hpr, _, _⟩ := @normalize_ok_of_valid 100 w hne hrows hx hy
    rw [hpr, except_bind_ok, normalize_invalid 100 hr]
    rfl

/-- C6 (witness): a written stroke with a single coordinate row raises
`InvalidStroke`, and so does a reference stroke with a single coordinate
row behind a valid written list. -/
theorem c6_invalid_input_witness :
    matchStrokes defaultCfg [[[0, 0]]] [sZero] oracleSwap = .error .invalidStroke ∧
    matchStrokes defaultCfg [sZero] [[[0, 0]]] oracleSwap = .error .invalidStroke :=
  ⟨c6_invalid_input_amended defaultCfg [[[0, 0]]] [sZero] oracleSwap rfl
    (Or.inl ⟨[[0, 0]], List.mem_singleton.mpr rfl, by norm_num⟩),
   c6_invalid_input_amended defaultCfg [sZero] [[[0, 0]]] oracleSwap rfl
    (Or.inr ⟨⟨by simp,
      by intro s hs; rw [List.mem_singleton.mp hs, show sZero.length = 2 from rfl],
      by simp [sZero], by simp [sZero]⟩,
      ⟨[[0, 0]], List.mem_singleton.mpr rfl, by norm_num⟩⟩)⟩

/-- C7 (counterexample). A mutation rate of `3/2`, far outside `[0, 1]`,
raises no `ConfigError`: the GA constructor performs no validation and
the run completes normally, executing 11 generations. -/
theorem c7_counterexample :
    gaGenerations ((mkGA 1 0 none 100 (4 / 5) (3 / 2) 3 10).evolve
      (evaluateChromosome defaultParams [extract sZero] []) oracleSwap) = some 11 := by
  obtain ⟨res, hres, _, _, hgen, _⟩ := evolve_zero_reference defaultParams
    [extract sZero] oracleSwap (4 / 5) (3 / 2) none (Or.inl rfl)
  rw [hres]
  show some res.generations = some 11
  rw [hgen]

/-- C7 (amended). There is no configuration validation at all: for every
crossover and mutation rate (inside `[0, 1]` or not) the GA constructor
accepts the configuration silently and the generation loop runs,
completing 11 generations on this one-written/zero-reference input. -/
theorem c7_no_config_validation_amended (cr mr : ℚ) (o : Oracle) :
    gaGenerations ((mkGA 1 0 none 100 cr mr 3 10).evolve
      (evaluateChromosome defaultParams [extract sZero] []) o) = some 11 ∧
    gaMapping ((mkGA 1 0 none 100 cr mr 3 10).evolve
      (evaluateChromosome defaultParams [extract sZero] []) o) = some (some [0]) := by
  obtain ⟨res, hres, hmap, _, hgen, _⟩ := evolve_zero_reference defaultParams
    [extract sZero] o cr mr none (Or.inl rfl)
  rw [hres]
  refine ⟨?_, ?_⟩
  · show some res.generations = some 11
    rw [hgen]
  · show some res.mapping = some (some [0])
    rw [hmap]

/-- C8 (counterexample). The angle-flip law fails for a non-zero chord
shorter than the extractor's `1e-6` guard: for `sTiny` the chord
`end - start` is non-zero, yet reversing the point order leaves the
angle at `0` instead of shifting it by `π` (mod `2π`). -/
theorem c8_counterexample :
    ((extract sTiny).endPoint.1 - (extract sTiny).startPoint.1,
     (extract sTiny).endPoint.2 - (extract sTiny).startPoint.2) ≠ ((0 : ℝ), (0 : ℝ)) ∧
    ¬ (((extract (revStroke sTiny)).angle : Real.Angle) =
        ((extract sTiny).angle : Real.Angle) + (Real.pi : Real.Angle)) := by
  constructor
  · rw [show ((extract sTiny).endPoint.1 - (extract sTiny).startPoint.1,
        (extract sTiny).endPoint.2 - (extract sTiny).startPoint.2) =
        ((1 / 10000000 : ℝ) - 0, (0 : ℝ) - 0) from rfl]
    intro h
    have := congrArg Prod.fst h
    norm_num at this
  · rw [extract_sTiny_angle, extract_sTiny_rev_angle]
    rw [Real.Angle.coe_zero, zero_add]
    exact fun h => Real.Angle.pi_ne_zero h.symm

/-- C8 (amended). For every stroke whose chord clears the extractor's
`1e-6` guard, reversing the point order keeps `center` and `length`,
swaps `start` and `end`, and shifts `angle` by exactly `π` (mod `2π`);
consequently, in an otherwise-identity match with the default `π/4`
threshold the reversed stroke produces an `ORIENTATION` record whose
angle difference is `π` (reported as 180 degrees). -/
theorem c8_angle_symmetry_amended (s : Stroke) (rf : List StrokeFeatures) (i : ℕ)
    (hrow : (s.getD 0 []).length = (s.getD 1 []).length)
    (hi : i < rf.length) (href : rf.getD i default = extract s)
    (hchord : (1e-6 : ℝ) < norm2
      ((extract s).endPoint.1 - (extract s).startPoint.1,
       (extract s).endPoint.2 - (extract s).startPoint.2)) :
    (extract (revStroke s)).center = (extract s).center ∧
    (extract (revStroke s)).length = (extract s).length ∧
    (extract (revStroke s)).startPoint = (extract s).endPoint ∧
    (extract (revStroke s)).endPoint = (extract s).startPoint ∧
    ((extract (revStroke s)).angle : Real.Angle) =
      ((extract s).angle : Real.Angle) + (Real.pi : Real.Angle) ∧
    ErrorRecord.orient i i 180 ∈
      detectErrors (identityMap rf.length) (rf.set i (extract (revStroke s))) rf
        (Real.pi / 4) := by
  obtain ⟨hc, hl, hs, he, hang⟩ := extract_revStroke s hrow
  exact ⟨hc, hl, hs, he, hang hchord,
    detect_orientation_of_rev rf i s hi href hrow hchord⟩

/-- C8 (witness): the amended law at the vertical stroke `sVert` (chord
length 100) matched against itself at index 0. -/
theorem c8_angle_symmetry_witness :
    (extract (revStroke sVert)).center = (extract sVert).center ∧
    (extract (revStroke sVert)).length = (extract sVert).length ∧
    (extract (revStroke sVert)).startPoint = (extract sVert).endPoint ∧
    (extract (revStroke sVert)).endPoint = (extract sVert).startPoint ∧
    ((extract (revStroke sVert)).angle : Real.Angle) =
      ((extract sVert).angle : Real.Angle) + (Real.pi : Real.Angle) ∧
    ErrorRecord.orient 0 0 180 ∈
      detectErrors (identityMap [extract sVert].length)
        ([extract sVert].set 0 (extract (revStroke sVert))) [extract sVert]
        (Real.pi / 4) := by
  refine c8_angle_symmetry_amended sVert [extract sVert] 0 rfl (by norm_num) rfl ?_
  rw [show ((extract sVert).endPoint.1 - (extract sVert).startPoint.1,
      (extract sVert).endPoint.2 - (extract sVert).startPoint.2) =
      ((0 : ℝ) - 0, (100 : ℝ) - 0) from rfl]
  unfold norm2
  rw [show ((0 : ℝ) - 0) ^ 2 + ((100 : ℝ) - 0) ^ 2 = (100 : ℝ) ^ 2 by norm_num]
  rw [Real.sqrt_sq (by norm_num)]
  norm_num

/-- C9. Normalization is idempotent: renormalizing the output of a
successful normalization returns the same stroke list unchanged (the
output's bounding-box minimum is the origin and its larger dimension
equals the target, so the second pass uses scale `1` and zero
translation).  Exact over the reals; the float implementation matches to
within rounding. -/
theorem c9_normalize_idempotent (t : ℝ) (strokes : List Stroke)
    (pr : List Stroke × Option NormMeta)
    (ht : 0 < t) (hne : strokes ≠ []) (h : normalize t strokes = .ok pr) :
    normalize t pr.1 = .ok (pr.1, some (metaOf t pr.1)) := by
  obtain ⟨hrows, hx, hy, hpr⟩ := normalize_ok_valid_inv h hne
  rw [hpr]
  exact normalize_idem t ht hne hrows hx hy

/-- C9 (witness): idempotence at the concrete normalization output of
`[sZero]`. -/
theorem c9_normalize_idempotent_witness :
    normalize 100 normPair0.1 = .ok (normPair0.1, some (metaOf 100 normPair0.1)) :=
  c9_normalize_idempotent 100 [sZero] normPair0 (by norm_num) (by simp)
    (normalize_eq_of_valid 100 (by simp)
      (by intro s hs; rw [List.mem_singleton.mp hs, show sZero.length = 2 from rfl])
      (by simp [sZero, allXOf]) (by simp [sZero, allYOf]))

/-- C10. Normalization rewrites only the first two rows of each stroke:
the output has one stroke per input stroke, each with the same number of
rows, and every row beyond the first two is returned unchanged.  (In the
pure model the caller's input is never mutated by construction; the
Python code works on `stroke.copy()`.) -/
theorem c10_extra_rows_unchanged (t : ℝ) (strokes : List Stroke)
    (pr : List Stroke × Option NormMeta)
    (hne : strokes ≠ []) (h : normalize t strokes = .ok pr) :
    pr.1.length = strokes.length ∧
    ∀ i, i < strokes.length →
      (pr.1.getD i []).length = (strokes.getD i []).length ∧
      (pr.1.getD i []).drop 2 = (strokes.getD i []).drop 2 := by
  obtain ⟨hrows, hx, hy, hpr⟩ := normalize_ok_valid_inv h hne
  rw [hpr]
  constructor
  · simp
  · intro i hi
    have hmap : (strokes.map (normStroke (listMin (allXOf strokes))
        (listMin (allYOf strokes)) (scaleOf t strokes))).getD i [] =
        normStroke (listMin (allXOf strokes)) (listMin (allYOf strokes))
          (scaleOf t strokes) (strokes.getD i []) := by
      rw [List.getD_eq_getElem _ _ (by simpa using hi),
        List.getD_eq_getElem _ _ hi]
      simp
    rw [hmap, normStroke_length, normStroke_drop2]
    exact ⟨rfl, rfl⟩

/-- C10 (witness): the three-row stroke `sThree` keeps its third row
verbatim through normalization. -/
theorem c10_extra_rows_unchanged_witness :
    normPair3.1.length = List.length [sThree] ∧
    ∀ i, i < List.length [sThree] →
      (normPair3.1.getD i []).length = ([sThree].getD i []).length ∧
      (normPair3.1.getD i []).drop 2 = ([sThree].getD i []).drop 2 :=
  c10_extra_rows_unchanged 100 [sThree] normPair3 (by simp)
    (normalize_eq_of_valid 100 (by simp)
      (by intro s hs; rw [List.mem_singleton.mp hs, show sThree.length = 3 from rfl]; omega)
      (by simp [sThree, allXOf]) (by simp [sThree, allYOf]))

end Autograder
